import Mathlib

/-!
Verification development for the bqpsolvers repository.

The algorithmic core of the repository is embedded shallowly:

* `ILS` models `ils_bit.py` (local-search engine): `load_model`, `evaluate`,
  `flip`, `flip_delta`, `step`.
* `CMIP` models `cmip_gurobi.py`: the `Ising` class with `merge` and
  `to_boolean_domain`, the `UnionFind` structure with path-halving `find`,
  and the strong-coupling contraction performed by `main`.

Python dictionaries are embedded as association lists (`dset`, `dgetD`,
`ddel`, `dkeys`) which mirror CPython semantics: insertion order is
preserved, overwriting a key keeps its position, and `dict.get(k, d)`
returns a default on a missing key.  Python floats are modelled as exact
rationals.  Dictionary or list accesses that raise in Python on a missing
key are modelled with explicit defaults or `Option`, and the theorems carry
hypotheses guaranteeing the access succeeds, so that the modelled run
coincides with the Python run.
-/

namespace BQP

/-! ### Association lists as Python dicts -/

variable {α : Type} {β : Type}

/-- Python `m[k] = v` on a dict: replace in place if the key exists
(keeping its position, as CPython does), else append at the end. -/
def dset [DecidableEq α] : List (α × β) → α → β → List (α × β)
  | [], k, v => [(k, v)]
  | p :: rest, k, v => if p.1 = k then (k, v) :: rest else p :: dset rest k v

/-- Python `m.get(k, d)`: value of the first entry with key `k`, else `d`. -/
def dgetD [DecidableEq α] : List (α × β) → α → β → β
  | [], _, d => d
  | p :: rest, k, d => if p.1 = k then p.2 else dgetD rest k d

/-- Python `del m[k]` (total model: removing an absent key is a no-op). -/
def ddel [DecidableEq α] (m : List (α × β)) (k : α) : List (α × β) :=
  m.filter (fun p => p.1 ≠ k)

/-- The keys of a dict, in storage order. -/
def dkeys (m : List (α × β)) : List α := m.map Prod.fst

/-- Python dict comprehension from a list of key-value pairs:
later entries overwrite earlier ones. -/
def dictOf [DecidableEq α] (l : List (α × β)) : List (α × β) :=
  l.foldl (fun m p => dset m p.1 p.2) []

theorem dkeys_nil : dkeys ([] : List (α × β)) = [] := rfl

theorem dkeys_cons (p : α × β) (m : List (α × β)) :
    dkeys (p :: m) = p.1 :: dkeys m := rfl

theorem mem_dkeys {m : List (α × β)} {k : α} :
    k ∈ dkeys m ↔ ∃ v, (k, v) ∈ m := by
  induction m with
  | nil => simp [dkeys]
  | cons p rest ih =>
    rw [dkeys_cons]
    simp only [List.mem_cons]
    constructor
    · rintro (h | h)
      · exact ⟨p.2, Or.inl (by cases p; cases h; rfl)⟩
      · obtain ⟨v, hv⟩ := ih.mp h
        exact ⟨v, Or.inr hv⟩
    · rintro ⟨v, h | h⟩
      · left; cases p; cases h; rfl
      · right; exact ih.mpr ⟨v, h⟩

theorem dset_cons_pos [DecidableEq α] (p : α × β) (rest : List (α × β))
    {k : α} (v : β) (h : p.1 = k) : dset (p :: rest) k v = (k, v) :: rest := by
  cases p; rw [dset]; simp_all

theorem dset_cons_neg [DecidableEq α] (p : α × β) (rest : List (α × β))
    {k : α} (v : β) (h : p.1 ≠ k) : dset (p :: rest) k v = p :: dset rest k v := by
  cases p; rw [dset]; simp_all

theorem dgetD_cons_pos [DecidableEq α] (p : α × β) (rest : List (α × β))
    {k : α} (d : β) (h : p.1 = k) : dgetD (p :: rest) k d = p.2 := by
  cases p; rw [dgetD]; simp_all

theorem dgetD_cons_neg [DecidableEq α] (p : α × β) (rest : List (α × β))
    {k : α} (d : β) (h : p.1 ≠ k) : dgetD (p :: rest) k d = dgetD rest k d := by
  cases p; rw [dgetD]; simp_all

theorem ddel_cons_pos [DecidableEq α] (p : α × β) (rest : List (α × β))
    {k : α} (h : p.1 = k) : ddel (p :: rest) k = ddel rest k := by
  simp [ddel, List.filter, h]

theorem ddel_cons_neg [DecidableEq α] (p : α × β) (rest : List (α × β))
    {k : α} (h : p.1 ≠ k) : ddel (p :: rest) k = p :: ddel rest k := by
  simp [ddel, List.filter, h]

theorem dgetD_dset_self [DecidableEq α] (m : List (α × β)) (k : α) (v d : β) :
    dgetD (dset m k v) k d = v := by
  induction m with
  | nil => simp [dset, dgetD]
  | cons p rest ih =>
    by_cases h : p.1 = k
    · rw [dset_cons_pos p rest v h, dgetD_cons_pos _ _ _ rfl]
    · rw [dset_cons_neg p rest v h, dgetD_cons_neg _ _ _ h, ih]

theorem dgetD_dset_ne [DecidableEq α] (m : List (α × β)) {k k' : α} (v d : β)
    (h : k' ≠ k) : dgetD (dset m k v) k' d = dgetD m k' d := by
  induction m with
  | nil => simp [dset, dgetD, Ne.symm h]
  | cons p rest ih =>
    by_cases hp : p.1 = k
    · rw [dset_cons_pos p rest v hp, dgetD_cons_neg _ _ _ (Ne.symm h),
        dgetD_cons_neg p rest d (hp ▸ fun hc => h hc.symm)]
    · by_cases hp' : p.1 = k'
      · rw [dset_cons_neg p rest v hp, dgetD_cons_pos _ _ _ hp',
          dgetD_cons_pos p rest d hp']
      · rw [dset_cons_neg p rest v hp, dgetD_cons_neg _ _ _ hp',
          dgetD_cons_neg p rest d hp', ih]

theorem mem_dkeys_dset [DecidableEq α] (m : List (α × β)) (k k' : α) (v : β) :
    k' ∈ dkeys (dset m k v) ↔ k' = k ∨ k' ∈ dkeys m := by
  induction m with
  | nil => simp [dset, dkeys]
  | cons p rest ih =>
    by_cases hp : p.1 = k
    · rw [dset_cons_pos p rest v hp, dkeys_cons, dkeys_cons]
      subst hp
      simp only [List.mem_cons]
      tauto
    · rw [dset_cons_neg p rest v hp, dkeys_cons, dkeys_cons]
      simp only [List.mem_cons, ih]
      tauto

theorem dkeys_dset_nodup [DecidableEq α] (m : List (α × β)) (k : α) (v : β)
    (h : (dkeys m).Nodup) : (dkeys (dset m k v)).Nodup := by
  induction m with
  | nil => simp [dset, dkeys]
  | cons p rest ih =>
    rw [dkeys_cons, List.nodup_cons] at h
    by_cases hp : p.1 = k
    · rw [dset_cons_pos p rest v hp, dkeys_cons, List.nodup_cons]
      exact ⟨hp ▸ h.1, h.2⟩
    · rw [dset_cons_neg p rest v hp, dkeys_cons, List.nodup_cons]
      refine ⟨fun hmem => ?_, ih h.2⟩
      rcases (mem_dkeys_dset rest k p.1 v).mp hmem with h1 | h1
      · exact hp h1
      · exact h.1 h1

theorem dgetD_ddel_ne [DecidableEq α] (m : List (α × β)) {k k' : α} (d : β)
    (h : k' ≠ k) : dgetD (ddel m k) k' d = dgetD m k' d := by
  induction m with
  | nil => simp [ddel, dgetD]
  | cons p rest ih =>
    by_cases hp : p.1 = k
    · rw [ddel_cons_pos p rest hp, ih,
        dgetD_cons_neg p rest d (hp ▸ fun hc => h hc.symm)]
    · by_cases hp' : p.1 = k'
      · rw [ddel_cons_neg p rest hp, dgetD_cons_pos _ _ _ hp',
          dgetD_cons_pos p rest d hp']
      · rw [ddel_cons_neg p rest hp, dgetD_cons_neg _ _ _ hp',
          dgetD_cons_neg p rest d hp', ih]

theorem mem_dkeys_ddel [DecidableEq α] (m : List (α × β)) (k k' : α) :
    k' ∈ dkeys (ddel m k) ↔ k' ∈ dkeys m ∧ k' ≠ k := by
  induction m with
  | nil => simp [ddel, dkeys]
  | cons p rest ih =>
    by_cases hp : p.1 = k
    · rw [ddel_cons_pos p rest hp, ih, dkeys_cons]
      simp only [List.mem_cons]
      constructor
      · rintro ⟨h1, h2⟩; exact ⟨Or.inr h1, h2⟩
      · rintro ⟨h1 | h1, h2⟩
        · exact absurd (h1.trans hp) h2
        · exact ⟨h1, h2⟩
    · rw [ddel_cons_neg p rest hp, dkeys_cons, dkeys_cons]
      simp only [List.mem_cons, ih]
      constructor
      · rintro (h | ⟨h1, h2⟩)
        · exact ⟨Or.inl h, h ▸ hp⟩
        · exact ⟨Or.inr h1, h2⟩
      · rintro ⟨h1 | h1, h2⟩
        · exact Or.inl h1
        · exact Or.inr ⟨h1, h2⟩

theorem dkeys_ddel_nodup [DecidableEq α] (m : List (α × β)) (k : α)
    (h : (dkeys m).Nodup) : (dkeys (ddel m k)).Nodup := by
  induction m with
  | nil => simp [ddel, dkeys]
  | cons p rest ih =>
    rw [dkeys_cons, List.nodup_cons] at h
    by_cases hp : p.1 = k
    · rw [ddel_cons_pos p rest hp]; exact ih h.2
    · rw [ddel_cons_neg p rest hp, dkeys_cons, List.nodup_cons]
      exact ⟨fun hm => h.1 ((mem_dkeys_ddel rest k p.1).mp hm).1, ih h.2⟩

theorem dgetD_of_not_mem_dkeys [DecidableEq α] (m : List (α × β)) {k : α} (d : β)
    (h : k ∉ dkeys m) : dgetD m k d = d := by
  induction m with
  | nil => rfl
  | cons p rest ih =>
    rw [dkeys_cons, List.mem_cons] at h
    push_neg at h
    rw [dgetD_cons_neg p rest d (fun hc => h.1 hc.symm), ih h.2]

theorem dgetD_mem [DecidableEq α] (m : List (α × β)) {k : α} (d : β)
    (h : k ∈ dkeys m) : (k, dgetD m k d) ∈ m := by
  induction m with
  | nil => simp [dkeys] at h
  | cons p rest ih =>
    rw [dkeys_cons, List.mem_cons] at h
    by_cases hp : p.1 = k
    · cases p; cases hp
      rw [dgetD_cons_pos _ rest d rfl]
      exact List.mem_cons_self _ _
    · rcases h with h | h
      · exact absurd h.symm hp
      · rw [dgetD_cons_neg p rest d hp]
        exact List.mem_cons_of_mem p (ih h)

theorem dset_of_not_mem [DecidableEq α] (m : List (α × β)) {k : α} (v : β)
    (h : k ∉ dkeys m) : dset m k v = m ++ [(k, v)] := by
  induction m with
  | nil => rfl
  | cons p rest ih =>
    rw [dkeys_cons, List.mem_cons] at h
    push_neg at h
    rw [dset_cons_neg p rest v (fun hc => h.1 hc.symm), ih h.2, List.cons_append]

theorem mem_dset_elim [DecidableEq α] {m : List (α × β)} {k : α} {v : β}
    {p : α × β} (h : p ∈ dset m k v) : p = (k, v) ∨ p ∈ m := by
  induction m with
  | nil =>
    rw [show dset ([] : List (α × β)) k v = [(k, v)] from rfl] at h
    exact Or.inl (List.mem_singleton.mp h)
  | cons q rest ih =>
    by_cases hq : q.1 = k
    · rw [dset_cons_pos q rest v hq] at h
      rcases List.mem_cons.mp h with h | h
      · exact Or.inl h
      · exact Or.inr (List.mem_cons_of_mem q h)
    · rw [dset_cons_neg q rest v hq] at h
      rcases List.mem_cons.mp h with h | h
      · exact Or.inr (by rw [h]; exact List.mem_cons_self q rest)
      · rcases ih h with h | h
        · exact Or.inl h
        · exact Or.inr (List.mem_cons_of_mem q h)

theorem foldl_dset_of_nodup [DecidableEq α] (l : List (α × β)) :
    ∀ m : List (α × β), (dkeys l).Nodup → (∀ k ∈ dkeys l, k ∉ dkeys m) →
      l.foldl (fun m p => dset m p.1 p.2) m = m ++ l := by
  induction l with
  | nil => intro m _ _; simp
  | cons p rest ih =>
    intro m hnd hdisj
    rw [dkeys_cons, List.nodup_cons] at hnd
    rw [List.foldl_cons,
      dset_of_not_mem m p.2 (hdisj p.1 (by rw [dkeys_cons]; exact List.mem_cons_self _ _)),
      ih (m ++ [(p.1, p.2)]) hnd.2 ?_]
    · simp
    · intro k hk
      have hk' : k ∈ dkeys (p :: rest) := by
        rw [dkeys_cons]; exact List.mem_cons_of_mem _ hk
      intro hmem
      rcases mem_dkeys.mp hmem with ⟨w, hw⟩
      rcases List.mem_append.mp hw with hw1 | hw1
      · exact hdisj k hk' (mem_dkeys.mpr ⟨w, hw1⟩)
      · simp only [List.mem_singleton, Prod.mk.injEq] at hw1
        exact hnd.1 (hw1.1 ▸ hk)

theorem dictOf_eq_self [DecidableEq α] (l : List (α × β))
    (h : (dkeys l).Nodup) : dictOf l = l := by
  rw [dictOf, foldl_dset_of_nodup l [] h (by intro k _ hk; simp [dkeys] at hk)]
  simp

theorem dkeys_foldl_dset_nodup [DecidableEq α] (l : List (α × β)) :
    ∀ m : List (α × β), (dkeys m).Nodup →
      (dkeys (l.foldl (fun m p => dset m p.1 p.2) m)).Nodup := by
  induction l with
  | nil => intro m hm; exact hm
  | cons p rest ih =>
    intro m hm
    exact ih (dset m p.1 p.2) (dkeys_dset_nodup m p.1 p.2 hm)

theorem dkeys_dictOf_nodup [DecidableEq α] (l : List (α × β)) :
    (dkeys (dictOf l)).Nodup :=
  dkeys_foldl_dset_nodup l [] (by simp [dkeys])

/-- The dense-array construction `for var, coeff in d.items(): arr[var] = coeff`
reads back, on a dict with distinct keys, as lookup with default. -/
theorem foldl_update_eq (m : List (ℕ × ℚ)) :
    ∀ f : ℕ → ℚ, (dkeys m).Nodup → ∀ k,
      (m.foldl (fun acc p => Function.update acc p.1 p.2) f) k
        = if k ∈ dkeys m then dgetD m k 0 else f k := by
  induction m with
  | nil => intro f _ k; simp [dkeys]
  | cons p rest ih =>
    intro f hnd k
    rw [dkeys_cons, List.nodup_cons] at hnd
    rw [List.foldl_cons, ih (Function.update f p.1 p.2) hnd.2 k]
    by_cases hk : k ∈ dkeys rest
    · have hkp : p.1 ≠ k := fun hc => hnd.1 (hc ▸ hk)
      rw [if_pos hk, dgetD_cons_neg p rest 0 hkp,
        if_pos (by rw [dkeys_cons]; exact List.mem_cons_of_mem _ hk)]
    · rw [if_neg hk]
      by_cases hkp : k = p.1
      · subst hkp
        rw [Function.update_same,
          if_pos (by rw [dkeys_cons]; exact List.mem_cons_self _ _),
          dgetD_cons_pos p rest 0 rfl]
      · rw [Function.update_noteq hkp,
          if_neg (by rw [dkeys_cons, List.mem_cons]; tauto)]

/-! ### Weighted sums over dicts

`msum m t` is the value `Σ coeff * t key` over the entries of a dict, the
shape of every objective sum in the repository. -/

/-- The sum over a dict of each entry's coefficient times a term. -/
def msum (m : List (α × ℚ)) (t : α → ℚ) : ℚ :=
  (m.map (fun p => p.2 * t p.1)).sum

theorem msum_nil (t : α → ℚ) : msum ([] : List (α × ℚ)) t = 0 := rfl

theorem msum_cons (p : α × ℚ) (m : List (α × ℚ)) (t : α → ℚ) :
    msum (p :: m) t = p.2 * t p.1 + msum m t := by
  simp [msum]

theorem msum_dset [DecidableEq α] (m : List (α × ℚ)) (k : α) (v : ℚ) (t : α → ℚ)
    (h : (dkeys m).Nodup) :
    msum (dset m k v) t = msum m t - dgetD m k 0 * t k + v * t k := by
  induction m with
  | nil => simp [dset, msum, dgetD]
  | cons p rest ih =>
    rw [dkeys_cons, List.nodup_cons] at h
    by_cases hp : p.1 = k
    · rw [dset_cons_pos p rest v hp, msum_cons, msum_cons,
        dgetD_cons_pos p rest 0 hp, hp]
      ring
    · rw [dset_cons_neg p rest v hp, msum_cons, msum_cons, ih h.2,
        dgetD_cons_neg p rest 0 hp]
      ring

theorem msum_ddel [DecidableEq α] (m : List (α × ℚ)) (k : α) (t : α → ℚ)
    (h : (dkeys m).Nodup) :
    msum (ddel m k) t = msum m t - dgetD m k 0 * t k := by
  induction m with
  | nil => simp [ddel, msum, dgetD]
  | cons p rest ih =>
    rw [dkeys_cons, List.nodup_cons] at h
    by_cases hp : p.1 = k
    · rw [ddel_cons_pos p rest hp, msum_cons, dgetD_cons_pos p rest 0 hp, hp]
      have hrest : dgetD rest k 0 = 0 :=
        dgetD_of_not_mem_dkeys rest 0 (hp ▸ h.1)
      have hdel : ddel rest k = rest := by
        apply List.filter_eq_self.mpr
        intro a ha
        simp only [ne_eq, decide_eq_true_eq]
        intro hc
        exact (hp ▸ h.1) (hc ▸ mem_dkeys.mpr ⟨a.2, by simpa using ha⟩)
      rw [hdel] at ih ⊢
      ring
    · rw [ddel_cons_neg p rest hp, msum_cons, msum_cons, ih h.2,
        dgetD_cons_neg p rest 0 hp]
      ring

/-! ### `ils_bit.py`: the local-search engine -/

namespace ILS

/-- A linear term of the input document: `{id, coeff}`. -/
structure LinTerm where
  id : ℕ
  coeff : ℚ
  deriving DecidableEq

/-- A quadratic term of the input document: `{id_tail, id_head, coeff}`. -/
structure QuadTerm where
  id_tail : ℕ
  id_head : ℕ
  coeff : ℚ
  deriving DecidableEq

/-- The fields of the input document consumed by `load_model`. -/
structure BqpData where
  variable_ids : List ℕ
  linear_terms : List LinTerm
  quadratic_terms : List QuadTerm
  deriving DecidableEq

/-- The `Model` namedtuple of `ils_bit.py`.  The dense lists
`linear_list` and `adjacent` (indexed by variable id) are modelled as
functions (`vars` models the `variables` field, a reserved word in Lean);
a missing `adjacent` entry is Python's `None`. -/
structure Model where
  vars : List ℕ
  linear : List (ℕ × ℚ)
  quadratic : List ((ℕ × ℕ) × ℚ)
  linear_list : ℕ → ℚ
  adjacent : ℕ → Option (List (ℕ × ℚ))

/-- One iteration of the `adjacent`-building loop in `load_model`:
`if adjacent[i] is None: adjacent[i] = []` then `adjacent[i].append((j, coeff))`,
and symmetrically for `j`. -/
def adjacentStep (adj : ℕ → Option (List (ℕ × ℚ))) (qt : QuadTerm) :
    ℕ → Option (List (ℕ × ℚ)) :=
  let adj1 := Function.update adj qt.id_tail
    (some ((adj qt.id_tail).getD [] ++ [(qt.id_head, qt.coeff)]))
  Function.update adj1 qt.id_head
    (some ((adj1 qt.id_head).getD [] ++ [(qt.id_tail, qt.coeff)]))

/-- `load_model` of `ils_bit.py`.  Returns `none` when `variable_ids` is
empty, modelling the `ValueError` that Python's `max(variables)` raises
on an empty sequence. -/
def load_model (data : BqpData) : Option Model :=
  if data.variable_ids = [] then none
  else
    let linear := dictOf (data.linear_terms.map (fun lt => (lt.id, lt.coeff)))
    let quadratic :=
      dictOf (data.quadratic_terms.map (fun qt => ((qt.id_tail, qt.id_head), qt.coeff)))
    let linear_list : ℕ → ℚ :=
      linear.foldl (fun acc p => Function.update acc p.1 p.2) (fun _ => 0)
    let adjacent : ℕ → Option (List (ℕ × ℚ)) :=
      data.quadratic_terms.foldl adjacentStep (fun _ => none)
    some { vars := data.variable_ids
           linear := linear
           quadratic := quadratic
           linear_list := linear_list
           adjacent := adjacent }

/-- `evaluate` of `ils_bit.py`: the raw objective of an assignment. -/
def evaluate (model : Model) (assignment : ℕ → ℚ) : ℚ :=
  (model.linear.map (fun p => p.2 * assignment p.1)).sum
    + (model.quadratic.map (fun p => p.2 * assignment p.1.1 * assignment p.1.2)).sum

/-- `flip` of `ils_bit.py`: toggle one variable of the assignment. -/
def flip (assignment : ℕ → ℚ) (v : ℕ) : ℕ → ℚ :=
  Function.update assignment v (1 - assignment v)

/-- `flip_delta` of `ils_bit.py`.  Returns `none` when `adjacent[v]` is
`None`, modelling the `TypeError` Python raises when iterating `None`. -/
def flip_delta (model : Model) (assignment : ℕ → ℚ) (v : ℕ) : Option ℚ :=
  match model.adjacent v with
  | none => none
  | some lst =>
    let difference := 1 - 2 * assignment v
    some (model.linear_list v * difference
      + (lst.map (fun p => p.2 * assignment p.1 * difference)).sum)

/-- The selection loop of `step`: running best variable and delta
(`none` models the initial `best_delta = math.inf`), threaded through the
possibility that some `flip_delta` fails. -/
def bestMove (model : Model) (assignment : ℕ → ℚ) :
    List ℕ → Option (ℕ × ℚ) → Option (Option (ℕ × ℚ))
  | [], best => some best
  | v :: rest, best =>
    match flip_delta model assignment v with
    | none => none
    | some delta =>
      match best with
      | none => bestMove model assignment rest (some (v, delta))
      | some best' =>
        if delta < best'.2 then bestMove model assignment rest (some (v, delta))
        else bestMove model assignment rest (some best')

/-- `step` of `ils_bit.py`.  The outer `Option` models an exception while
evaluating `flip_delta`; the inner value is Python's return: `none` for
"no move" and `some (delta, assignment)` when a flip was applied. -/
def step (model : Model) (assignment : ℕ → ℚ) :
    Option (Option (ℚ × (ℕ → ℚ))) :=
  (bestMove model assignment model.vars none).map
    (fun best =>
      match best with
      | none => none
      | some (bv, bd) =>
        if 0 ≤ bd then none else some (bd, flip assignment bv))

theorem flip_self (x : ℕ → ℚ) (v : ℕ) : flip x v v = 1 - x v := by
  simp [flip]

theorem flip_ne (x : ℕ → ℚ) {v w : ℕ} (h : w ≠ v) : flip x v w = x w := by
  simp [flip, Function.update_noteq h]

/-- The contents of `adjacent[v]` after the building loop: one entry per
quadratic term incident to `v`, pointing at the other endpoint. -/
def adjSpec (v : ℕ) (terms : List QuadTerm) : List (ℕ × ℚ) :=
  terms.filterMap (fun qt =>
    if qt.id_tail = v then some (qt.id_head, qt.coeff)
    else if qt.id_head = v then some (qt.id_tail, qt.coeff) else none)

/-- Whether `v` appears in some quadratic term. -/
def occursIn (v : ℕ) (terms : List QuadTerm) : Bool :=
  terms.any (fun qt => qt.id_tail = v || qt.id_head = v)

theorem adjacentStep_tail (adj : ℕ → Option (List (ℕ × ℚ))) (qt : QuadTerm)
    (h : qt.id_tail ≠ qt.id_head) :
    adjacentStep adj qt qt.id_tail
      = some ((adj qt.id_tail).getD [] ++ [(qt.id_head, qt.coeff)]) := by
  simp only [adjacentStep]
  rw [Function.update_noteq h, Function.update_same]

theorem adjacentStep_head (adj : ℕ → Option (List (ℕ × ℚ))) (qt : QuadTerm)
    (h : qt.id_tail ≠ qt.id_head) :
    adjacentStep adj qt qt.id_head
      = some ((adj qt.id_head).getD [] ++ [(qt.id_tail, qt.coeff)]) := by
  simp only [adjacentStep]
  rw [Function.update_same, Function.update_noteq (Ne.symm h)]

theorem adjacentStep_other (adj : ℕ → Option (List (ℕ × ℚ))) (qt : QuadTerm)
    {v : ℕ} (h1 : v ≠ qt.id_tail) (h2 : v ≠ qt.id_head) :
    adjacentStep adj qt v = adj v := by
  simp only [adjacentStep]
  rw [Function.update_noteq h2, Function.update_noteq h1]

theorem adjSpec_cons_tail (qt : QuadTerm) (rest : List QuadTerm) {v : ℕ}
    (h : qt.id_tail = v) :
    adjSpec v (qt :: rest) = (qt.id_head, qt.coeff) :: adjSpec v rest := by
  rw [adjSpec, List.filterMap_cons, adjSpec]
  simp [h]

theorem adjSpec_cons_head (qt : QuadTerm) (rest : List QuadTerm) {v : ℕ}
    (h1 : qt.id_tail ≠ v) (h2 : qt.id_head = v) :
    adjSpec v (qt :: rest) = (qt.id_tail, qt.coeff) :: adjSpec v rest := by
  rw [adjSpec, List.filterMap_cons, adjSpec]
  simp [h1, h2]

theorem adjSpec_cons_other (qt : QuadTerm) (rest : List QuadTerm) {v : ℕ}
    (h1 : qt.id_tail ≠ v) (h2 : qt.id_head ≠ v) :
    adjSpec v (qt :: rest) = adjSpec v rest := by
  rw [adjSpec, List.filterMap_cons, adjSpec]
  simp [h1, h2]

theorem occursIn_cons (qt : QuadTerm) (rest : List QuadTerm) (v : ℕ) :
    occursIn v (qt :: rest)
      = ((qt.id_tail = v || qt.id_head = v) || occursIn v rest) := by
  rw [occursIn, List.any_cons, occursIn]

theorem adjacentFold_eq (terms : List QuadTerm) :
    ∀ adj : ℕ → Option (List (ℕ × ℚ)), ∀ v : ℕ,
      (∀ qt ∈ terms, qt.id_tail ≠ qt.id_head) →
      (terms.foldl adjacentStep adj) v
        = if occursIn v terms || (adj v).isSome
          then some ((adj v).getD [] ++ adjSpec v terms) else none := by
  induction terms with
  | nil =>
    intro adj v _
    cases hv : adj v <;> simp [occursIn, adjSpec, hv]
  | cons qt rest ih =>
    intro adj v hne
    have hqt : qt.id_tail ≠ qt.id_head := hne qt (List.mem_cons_self _ _)
    have hrest : ∀ q ∈ rest, q.id_tail ≠ q.id_head :=
      fun q hq => hne q (List.mem_cons_of_mem _ hq)
    rw [List.foldl_cons, ih (adjacentStep adj qt) v hrest]
    by_cases ht : v = qt.id_tail
    · subst ht
      rw [adjacentStep_tail adj qt hqt, adjSpec_cons_tail qt rest rfl,
        occursIn_cons]
      simp only [Option.isSome_some, Bool.or_true, decide_True, Bool.true_or,
        if_true, Option.getD_some]
      rw [List.append_assoc]
      rfl
    · by_cases hh : v = qt.id_head
      · subst hh
        rw [adjacentStep_head adj qt hqt,
          adjSpec_cons_head qt rest (fun hc => ht hc.symm) rfl, occursIn_cons]
        simp only [Option.isSome_some, Bool.or_true, decide_True, Bool.true_or,
          Bool.or_true, if_true, Option.getD_some]
        rw [List.append_assoc]
        rfl
      · rw [adjacentStep_other adj qt ht hh,
          adjSpec_cons_other qt rest (fun hc => ht hc.symm) (fun hc => hh hc.symm),
          occursIn_cons]
        have hd : (decide (qt.id_tail = v) || decide (qt.id_head = v)) = false := by
          rw [decide_eq_false (fun hc => ht hc.symm),
            decide_eq_false (fun hc => hh hc.symm)]
          rfl
        rw [hd, Bool.false_or]

/-- Flipping `v` does not change a linear-style sum whose keys avoid `v`. -/
theorem sum_flip_eq_of_not_mem (m : List (ℕ × ℚ)) (x : ℕ → ℚ) (v : ℕ)
    (h : v ∉ dkeys m) :
    (m.map (fun p => p.2 * flip x v p.1)).sum = (m.map (fun p => p.2 * x p.1)).sum := by
  induction m with
  | nil => rfl
  | cons p rest ih =>
    rw [dkeys_cons, List.mem_cons] at h
    push_neg at h
    rw [List.map_cons, List.map_cons, List.sum_cons, List.sum_cons,
      flip_ne x (fun hc => h.1 hc.symm), ih h.2]

/-- Effect of one flip on the linear part of the objective. -/
theorem sum_flip_diff (m : List (ℕ × ℚ)) (x : ℕ → ℚ) (v : ℕ)
    (h : (dkeys m).Nodup) :
    (m.map (fun p => p.2 * flip x v p.1)).sum - (m.map (fun p => p.2 * x p.1)).sum
      = dgetD m v 0 * (1 - 2 * x v) := by
  induction m with
  | nil => simp [dgetD]
  | cons p rest ih =>
    rw [dkeys_cons, List.nodup_cons] at h
    rw [List.map_cons, List.map_cons, List.sum_cons, List.sum_cons]
    by_cases hp : p.1 = v
    · subst hp
      rw [sum_flip_eq_of_not_mem rest x p.1 h.1, flip_self,
        dgetD_cons_pos p rest 0 rfl]
      ring
    · rw [flip_ne x hp, dgetD_cons_neg p rest 0 hp]
      have := ih h.2
      linarith [this]

/-- Effect of one flip on the quadratic part of the objective, matched
against the adjacency entries of `v`. -/
theorem quad_flip_diff (terms : List QuadTerm) (x : ℕ → ℚ) (v : ℕ)
    (hne : ∀ qt ∈ terms, qt.id_tail ≠ qt.id_head) :
    (terms.map (fun qt => qt.coeff * flip x v qt.id_tail * flip x v qt.id_head)).sum
      - (terms.map (fun qt => qt.coeff * x qt.id_tail * x qt.id_head)).sum
      = ((adjSpec v terms).map (fun p => p.2 * x p.1 * (1 - 2 * x v))).sum := by
  induction terms with
  | nil => simp [adjSpec]
  | cons qt rest ih =>
    have hqt : qt.id_tail ≠ qt.id_head := hne qt (List.mem_cons_self _ _)
    have hrest : ∀ q ∈ rest, q.id_tail ≠ q.id_head :=
      fun q hq => hne q (List.mem_cons_of_mem _ hq)
    rw [List.map_cons, List.map_cons, List.sum_cons, List.sum_cons]
    by_cases ht : qt.id_tail = v
    · rw [adjSpec, List.filterMap_cons]
      rw [if_pos ht, ← adjSpec]
      rw [List.map_cons, List.sum_cons]
      rw [ht, flip_self, flip_ne x (ht ▸ Ne.symm hqt)]
      have := ih hrest
      simp only
      linarith [this]
    · by_cases hh : qt.id_head = v
      · rw [adjSpec, List.filterMap_cons, if_neg ht, if_pos hh, ← adjSpec]
        rw [List.map_cons, List.sum_cons]
        rw [hh, flip_self, flip_ne x (hh ▸ hqt)]
        have := ih hrest
        simp only
        linarith [this]
      · rw [adjSpec, List.filterMap_cons, if_neg ht, if_neg hh, ← adjSpec]
        rw [flip_ne x ht, flip_ne x hh]
        have := ih hrest
        linarith [this]

theorem load_model_of_ne (data : BqpData) (h : ¬data.variable_ids = []) :
    load_model data = some
      { vars := data.variable_ids
        linear := dictOf (data.linear_terms.map (fun lt => (lt.id, lt.coeff)))
        quadratic := dictOf (data.quadratic_terms.map
          (fun qt => ((qt.id_tail, qt.id_head), qt.coeff)))
        linear_list :=
          (dictOf (data.linear_terms.map (fun lt => (lt.id, lt.coeff)))).foldl
            (fun acc p => Function.update acc p.1 p.2) (fun _ => 0)
        adjacent := data.quadratic_terms.foldl adjacentStep (fun _ => none) } := by
  rw [load_model, if_neg h]

/-- C5: incremental delta exactness.  For a model built by `load_model`
from a well-formed document (distinct ordered quadratic keys, no
self-loops, term ids drawn from the declared variables), a boolean
assignment `x` and a variable `v` incident to at least one quadratic term,
`flip_delta` returns exactly the objective change of toggling `v`:
`evaluate(model, flip(x, v)) - evaluate(model, x) = flip_delta(model, x, v)`,
exactly over rational arithmetic. -/
theorem flip_delta_exact (data : BqpData) (model : Model) (x : ℕ → ℚ) (v : ℕ)
    (hload : load_model data = some model)
    (hlin_ids : ∀ lt ∈ data.linear_terms, lt.id ∈ data.variable_ids)
    (hquad_ids : ∀ qt ∈ data.quadratic_terms,
      qt.id_tail ∈ data.variable_ids ∧ qt.id_head ∈ data.variable_ids)
    (hkeys : (data.quadratic_terms.map (fun qt => (qt.id_tail, qt.id_head))).Nodup)
    (hne : ∀ qt ∈ data.quadratic_terms, qt.id_tail ≠ qt.id_head)
    (hx : ∀ n, x n = 0 ∨ x n = 1)
    (hv : occursIn v data.quadratic_terms = true) :
    flip_delta model x v = some (evaluate model (flip x v) - evaluate model x) := by
  have hemp : ¬data.variable_ids = [] := by
    intro hc
    rw [load_model, if_pos hc] at hload
    exact Option.noConfusion hload
  rw [load_model_of_ne data hemp] at hload
  have hm := Option.some.inj hload
  subst hm
  have hadj : data.quadratic_terms.foldl adjacentStep (fun _ => none) v
      = some (adjSpec v data.quadratic_terms) := by
    rw [adjacentFold_eq data.quadratic_terms (fun _ => none) v hne, hv]
    simp
  have hqkeys : dkeys (data.quadratic_terms.map
      (fun qt => ((qt.id_tail, qt.id_head), qt.coeff)))
      = data.quadratic_terms.map (fun qt => (qt.id_tail, qt.id_head)) := by
    rw [dkeys, List.map_map]
    rfl
  have hqd : dictOf (data.quadratic_terms.map
        (fun qt => ((qt.id_tail, qt.id_head), qt.coeff)))
      = data.quadratic_terms.map (fun qt => ((qt.id_tail, qt.id_head), qt.coeff)) :=
    dictOf_eq_self _ (by rw [hqkeys]; exact hkeys)
  have hll : ((dictOf (data.linear_terms.map (fun lt => (lt.id, lt.coeff)))).foldl
        (fun acc p => Function.update acc p.1 p.2) ((fun _ => 0) : ℕ → ℚ)) v
      = dgetD (dictOf (data.linear_terms.map (fun lt => (lt.id, lt.coeff)))) v 0 := by
    rw [foldl_update_eq _ (fun _ => 0) (dkeys_dictOf_nodup _) v]
    by_cases hmem : v ∈ dkeys (dictOf (data.linear_terms.map (fun lt => (lt.id, lt.coeff))))
    · rw [if_pos hmem]
    · rw [if_neg hmem, dgetD_of_not_mem_dkeys _ 0 hmem]
  have hlin := sum_flip_diff (dictOf (data.linear_terms.map (fun lt => (lt.id, lt.coeff))))
    x v (dkeys_dictOf_nodup _)
  have hquad := quad_flip_diff data.quadratic_terms x v hne
  simp only [flip_delta, hadj]
  congr 1
  simp only [evaluate]
  rw [hqd, hll]
  have hmap1 : ((data.quadratic_terms.map
        (fun qt => ((qt.id_tail, qt.id_head), qt.coeff))).map
          (fun p => p.2 * flip x v p.1.1 * flip x v p.1.2)).sum
      = (data.quadratic_terms.map
          (fun qt => qt.coeff * flip x v qt.id_tail * flip x v qt.id_head)).sum := by
    rw [List.map_map]
    rfl
  have hmap2 : ((data.quadratic_terms.map
        (fun qt => ((qt.id_tail, qt.id_head), qt.coeff))).map
          (fun p => p.2 * x p.1.1 * x p.1.2)).sum
      = (data.quadratic_terms.map
          (fun qt => qt.coeff * x qt.id_tail * x qt.id_head)).sum := by
    rw [List.map_map]
    rfl
  rw [hmap1, hmap2]
  linarith [hlin, hquad]

theorem adjacentFold_not_touched (terms : List QuadTerm) :
    ∀ adj : ℕ → Option (List (ℕ × ℚ)), ∀ v : ℕ,
      (∀ qt ∈ terms, qt.id_tail ≠ v ∧ qt.id_head ≠ v) →
      (terms.foldl adjacentStep adj) v = adj v := by
  induction terms with
  | nil => intro adj v _; rfl
  | cons qt rest ih =>
    intro adj v hv
    have hqt := hv qt (List.mem_cons_self _ _)
    rw [List.foldl_cons,
      ih (adjacentStep adj qt) v (fun q hq => hv q (List.mem_cons_of_mem _ hq)),
      adjacentStep_other adj qt (fun hc => hqt.1 hc.symm) (fun hc => hqt.2 hc.symm)]

theorem bestMove_none_of_mem (model : Model) (x : ℕ → ℚ) {v : ℕ}
    (hdelta : flip_delta model x v = none) :
    ∀ l : List ℕ, ∀ acc, v ∈ l → bestMove model x l acc = none := by
  intro l
  induction l with
  | nil => intro acc h; exact absurd h (List.not_mem_nil v)
  | cons w rest ih =>
    intro acc hmem
    by_cases hw : w = v
    · subst hw
      rw [bestMove, hdelta]
    · have hv : v ∈ rest := by
        rcases List.mem_cons.mp hmem with h | h
        · exact absurd h.symm hw
        · exact h
      rw [bestMove]
      cases hfd : flip_delta model x w with
      | none => rfl
      | some d =>
        cases acc with
        | none => exact ih _ hv
        | some b =>
          show (if d < b.2 then bestMove model x rest (some (w, d))
            else bestMove model x rest (some b)) = none
          by_cases hlt : d < b.2
          · rw [if_pos hlt]; exact ih _ hv
          · rw [if_neg hlt]; exact ih _ hv

/-- C10: isolated-variable precondition of the search loop.  If the input
document contains a variable `v` that appears in no quadratic term, then in
the model built by `load_model` the adjacency entry of `v` is `None`, so
`flip_delta` on `v` fails (returns `none`, Python's `TypeError`), and
`step` — which evaluates `flip_delta` for every variable — fails as well
instead of returning a delta. -/
theorem isolated_variable_fails (data : BqpData) (model : Model) (v : ℕ)
    (hload : load_model data = some model)
    (hv : v ∈ data.variable_ids)
    (hiso : ∀ qt ∈ data.quadratic_terms, qt.id_tail ≠ v ∧ qt.id_head ≠ v) :
    model.adjacent v = none
    ∧ (∀ x, flip_delta model x v = none)
    ∧ (∀ x, step model x = none) := by
  have hemp : ¬data.variable_ids = [] := fun hc => List.not_mem_nil v (hc ▸ hv)
  rw [load_model_of_ne data hemp] at hload
  have hm := Option.some.inj hload
  subst hm
  have hadj : data.quadratic_terms.foldl adjacentStep (fun _ => none) v = none :=
    adjacentFold_not_touched data.quadratic_terms (fun _ => none) v hiso
  have hfd : ∀ x : ℕ → ℚ, flip_delta
      { vars := data.variable_ids
        linear := dictOf (data.linear_terms.map (fun lt => (lt.id, lt.coeff)))
        quadratic := dictOf (data.quadratic_terms.map
          (fun qt => ((qt.id_tail, qt.id_head), qt.coeff)))
        linear_list :=
          (dictOf (data.linear_terms.map (fun lt => (lt.id, lt.coeff)))).foldl
            (fun acc p => Function.update acc p.1 p.2) (fun _ => 0)
        adjacent := data.quadratic_terms.foldl adjacentStep (fun _ => none) }
      x v = none := by
    intro x
    simp only [flip_delta, hadj]
  refine ⟨hadj, hfd, fun x => ?_⟩
  rw [step, bestMove_none_of_mem _ x (hfd x) _ none hv]
  rfl

/-- C8: the code path for an empty model.  `load_model` on a document with
zero variables fails (Python: `max()` of an empty sequence raises
`ValueError`), modelled as `none`, before any search loop can run. -/
theorem load_model_empty :
    load_model { variable_ids := [], linear_terms := [], quadratic_terms := [] }
      = none := rfl

theorem sum_ge_neg_abs {γ : Type} (m : List (γ × ℚ)) (f : γ × ℚ → ℚ)
    (h : ∀ p ∈ m, -|p.2| ≤ f p) :
    -((m.map (fun p => |p.2|)).sum) ≤ (m.map f).sum := by
  induction m with
  | nil => simp
  | cons p rest ih =>
    rw [List.map_cons, List.map_cons, List.sum_cons, List.sum_cons]
    have h1 := h p (List.mem_cons_self _ _)
    have h2 := ih (fun q hq => h q (List.mem_cons_of_mem _ hq))
    linarith [h1, h2]

/-- C9: trivial lower bound validity.  For every model and every 0/1
assignment, the raw objective is bounded below by minus the sum of
absolute linear coefficients minus the sum of absolute quadratic
coefficients. -/
theorem lower_bound_valid (model : Model) (x : ℕ → ℚ)
    (hx : ∀ n, x n = 0 ∨ x n = 1) :
    -((model.linear.map (fun p => |p.2|)).sum)
      - ((model.quadratic.map (fun p => |p.2|)).sum)
      ≤ evaluate model x := by
  have h01 : ∀ n, 0 ≤ x n ∧ x n ≤ 1 := by
    intro n
    rcases hx n with h | h <;> rw [h] <;> norm_num
  have hlin : -((model.linear.map (fun p => |p.2|)).sum)
      ≤ (model.linear.map (fun p => p.2 * x p.1)).sum := by
    apply sum_ge_neg_abs
    intro p _
    rcases hx p.1 with h | h
    · rw [h, mul_zero]
      linarith [abs_nonneg p.2]
    · rw [h, mul_one]
      exact neg_abs_le p.2
  have hquad : -((model.quadratic.map (fun p => |p.2|)).sum)
      ≤ (model.quadratic.map (fun p => p.2 * x p.1.1 * x p.1.2)).sum := by
    apply sum_ge_neg_abs
    intro p _
    have ha := h01 p.1.1
    have hb := h01 p.1.2
    rcases hx p.1.1 with h | h
    · rw [h, mul_zero, zero_mul]
      linarith [abs_nonneg p.2]
    · rw [h, mul_one]
      rcases hx p.1.2 with h2 | h2
      · rw [h2, mul_zero]
        linarith [abs_nonneg p.2]
      · rw [h2, mul_one]
        exact neg_abs_le p.2
  rw [evaluate]
  linarith [hlin, hquad]

/-- The selection loop of `step` over total deltas: the pure fold that
`bestMove` computes when every `flip_delta` is defined. -/
def bestFold (dv : ℕ → ℚ) : List ℕ → Option (ℕ × ℚ) → Option (ℕ × ℚ)
  | [], best => best
  | v :: rest, best =>
    match best with
    | none => bestFold dv rest (some (v, dv v))
    | some best' =>
      if dv v < best'.2 then bestFold dv rest (some (v, dv v))
      else bestFold dv rest (some best')

theorem bestMove_eq_bestFold (model : Model) (x : ℕ → ℚ) :
    ∀ l : List ℕ, ∀ acc, (∀ v ∈ l, (flip_delta model x v).isSome) →
      bestMove model x l acc
        = some (bestFold (fun v => (flip_delta model x v).getD 0) l acc) := by
  intro l
  induction l with
  | nil => intro acc _; rfl
  | cons v rest ih =>
    intro acc hdef
    have hv := hdef v (List.mem_cons_self _ _)
    have hrest := fun w hw => hdef w (List.mem_cons_of_mem _ hw)
    cases hfd : flip_delta model x v with
    | none => rw [hfd] at hv; exact absurd hv (by simp)
    | some d =>
      rw [bestMove, hfd]
      cases acc with
      | none =>
        show bestMove model x rest (some (v, d))
          = some (bestFold (fun w => (flip_delta model x w).getD 0) rest
              (some (v, (flip_delta model x v).getD 0)))
        rw [hfd]
        exact ih _ hrest
      | some b =>
        show (if d < b.2 then bestMove model x rest (some (v, d))
            else bestMove model x rest (some b))
          = some (if (flip_delta model x v).getD 0 < b.2
              then bestFold (fun w => (flip_delta model x w).getD 0) rest
                (some (v, (flip_delta model x v).getD 0))
              else bestFold (fun w => (flip_delta model x w).getD 0) rest (some b))
        rw [hfd]
        show (if d < b.2 then bestMove model x rest (some (v, d))
            else bestMove model x rest (some b))
          = some (if d < b.2
              then bestFold (fun w => (flip_delta model x w).getD 0) rest (some (v, d))
              else bestFold (fun w => (flip_delta model x w).getD 0) rest (some b))
        by_cases hlt : d < b.2
        · rw [if_pos hlt, if_pos hlt]; exact ih _ hrest
        · rw [if_neg hlt, if_neg hlt]; exact ih _ hrest

theorem bestFold_some (dv : ℕ → ℚ) :
    ∀ l : List ℕ, ∀ b : ℕ × ℚ, ∃ c, bestFold dv l (some b) = some c := by
  intro l
  induction l with
  | nil => intro b; exact ⟨b, rfl⟩
  | cons v rest ih =>
    intro b
    rw [bestFold]
    by_cases hlt : dv v < b.2
    · rw [if_pos hlt]; exact ih _
    · rw [if_neg hlt]; exact ih _

theorem bestFold_spec (dv : ℕ → ℚ) :
    ∀ l : List ℕ, ∀ b c : ℕ × ℚ, bestFold dv l (some b) = some c →
      (c = b ∧ ∀ w ∈ l, b.2 ≤ dv w)
      ∨ (c.2 = dv c.1 ∧ c.2 < b.2 ∧ (∀ w ∈ l, c.2 ≤ dv w)
          ∧ ∃ l1 l2, l = l1 ++ c.1 :: l2 ∧ ∀ w ∈ l1, c.2 < dv w) := by
  intro l
  induction l with
  | nil =>
    intro b c h
    rw [bestFold] at h
    exact Or.inl ⟨(Option.some.inj h).symm, by intro w hw; cases hw⟩
  | cons v rest ih =>
    intro b c h
    rw [bestFold] at h
    by_cases hlt : dv v < b.2
    · rw [if_pos hlt] at h
      rcases ih (v, dv v) c h with ⟨hc, hall⟩ | ⟨he, hlt2, hall, l1, l2, hsplit, hfirst⟩
      · refine Or.inr ⟨by rw [hc], by rw [hc]; exact hlt, ?_, [], rest, by rw [hc]; rfl, ?_⟩
        · intro w hw
          rcases List.mem_cons.mp hw with hw | hw
          · rw [hc, hw]
          · exact hc ▸ hall w hw
        · intro w hw; cases hw
      · refine Or.inr ⟨he, lt_trans hlt2 hlt, ?_, v :: l1, l2, by rw [hsplit]; rfl, ?_⟩
        · intro w hw
          rcases List.mem_cons.mp hw with hw | hw
          · exact hw ▸ le_of_lt hlt2
          · exact hall w hw
        · intro w hw
          rcases List.mem_cons.mp hw with hw | hw
          · exact hw ▸ hlt2
          · exact hfirst w hw
    · rw [if_neg hlt] at h
      push_neg at hlt
      rcases ih b c h with ⟨hc, hall⟩ | ⟨he, hlt2, hall, l1, l2, hsplit, hfirst⟩
      · refine Or.inl ⟨hc, ?_⟩
        intro w hw
        rcases List.mem_cons.mp hw with hw | hw
        · exact hw ▸ hlt
        · exact hall w hw
      · refine Or.inr ⟨he, hlt2, ?_, v :: l1, l2, by rw [hsplit]; rfl, ?_⟩
        · intro w hw
          rcases List.mem_cons.mp hw with hw | hw
          · exact hw ▸ le_of_lt (lt_of_lt_of_le hlt2 hlt)
          · exact hall w hw
        · intro w hw
          rcases List.mem_cons.mp hw with hw | hw
          · exact hw ▸ lt_of_lt_of_le hlt2 hlt
          · exact hfirst w hw

theorem bestFold_none_spec (dv : ℕ → ℚ) (v0 : ℕ) (rest : List ℕ) (c : ℕ × ℚ)
    (h : bestFold dv (v0 :: rest) none = some c) :
    c.2 = dv c.1 ∧ (∀ w ∈ v0 :: rest, c.2 ≤ dv w)
      ∧ ∃ l1 l2, v0 :: rest = l1 ++ c.1 :: l2 ∧ ∀ w ∈ l1, c.2 < dv w := by
  rw [bestFold] at h
  rcases bestFold_spec dv rest (v0, dv v0) c h with
    ⟨hc, hall⟩ | ⟨he, hlt2, hall, l1, l2, hsplit, hfirst⟩
  · subst hc
    refine ⟨rfl, ?_, [], rest, rfl, by intro w hw; cases hw⟩
    intro w hw
    rcases List.mem_cons.mp hw with hw | hw
    · rw [hw]
    · exact hall w hw
  · refine ⟨he, ?_, v0 :: l1, l2, by rw [hsplit]; rfl, ?_⟩
    · intro w hw
      rcases List.mem_cons.mp hw with hw | hw
      · exact hw ▸ le_of_lt hlt2
      · exact hall w hw
    · intro w hw
      rcases List.mem_cons.mp hw with hw | hw
      · exact hw ▸ hlt2
      · exact hfirst w hw

/-- C6: semantics of `step`.  When `flip_delta` is defined on every
variable, `step` returns "no move" (`none`) exactly when no variable has a
strictly negative `flip_delta` — so on "no move" the assignment is a
single-flip local optimum — and otherwise it toggles the first variable in
`model.variables` iteration order attaining the minimum `flip_delta` and
returns that negative delta. -/
theorem step_spec (model : Model) (x : ℕ → ℚ)
    (hdef : ∀ v ∈ model.vars, (flip_delta model x v).isSome) :
    (step model x = some none ↔
      ∀ v ∈ model.vars, ∀ d, flip_delta model x v = some d → 0 ≤ d)
    ∧ (∀ d x', step model x = some (some (d, x')) →
        d < 0 ∧ ∃ v, v ∈ model.vars ∧ flip_delta model x v = some d ∧ x' = flip x v
          ∧ (∀ w ∈ model.vars, ∀ dw, flip_delta model x w = some dw → d ≤ dw)
          ∧ ∃ l1 l2, model.vars = l1 ++ v :: l2
              ∧ ∀ w ∈ l1, ∀ dw, flip_delta model x w = some dw → d < dw)
    ∧ ((∃ v ∈ model.vars, ∃ d, flip_delta model x v = some d ∧ d < 0) →
        ∃ d x', step model x = some (some (d, x'))) := by
  have hsome : ∀ v ∈ model.vars, flip_delta model x v
      = some ((flip_delta model x v).getD 0) := by
    intro v hv
    rcases Option.isSome_iff_exists.mp (hdef v hv) with ⟨d, hd⟩
    rw [hd]
    rfl
  have hval : ∀ v d, flip_delta model x v = some d →
      (flip_delta model x v).getD 0 = d := by
    intro v d hd
    rw [hd]
    rfl
  have hbm := bestMove_eq_bestFold model x model.vars none hdef
  cases hvars : model.vars with
  | nil =>
    rw [hvars] at hbm
    have hstep : step model x = some none := by
      rw [step, hvars, hbm]
      rfl
    refine ⟨⟨fun _ v hv => absurd hv (List.not_mem_nil v), fun _ => hstep⟩,
      fun d x' h => ?_, fun h => ?_⟩
    · rw [hstep] at h
      exact Option.noConfusion (Option.some.inj h)
    · rcases h with ⟨v, hv, _⟩
      exact absurd hv (List.not_mem_nil v)
  | cons v0 rest =>
    rw [hvars] at hbm
    obtain ⟨⟨c1, c2⟩, hcf⟩ :=
      bestFold_some (fun v => (flip_delta model x v).getD 0) rest
        (v0, (flip_delta model x v0).getD 0)
    have hcf' : bestFold (fun v => (flip_delta model x v).getD 0)
        (v0 :: rest) none = some (c1, c2) := hcf
    obtain ⟨he, hall, l1, l2, hsplit, hfirst⟩ :=
      bestFold_none_spec (fun v => (flip_delta model x v).getD 0) v0 rest (c1, c2) hcf'
    have he' : c2 = (flip_delta model x c1).getD 0 := he
    have hc1mem : c1 ∈ v0 :: rest := by
      rw [hsplit]
      exact List.mem_append_right l1 (List.mem_cons_self _ _)
    have hsomev : ∀ v ∈ v0 :: rest, flip_delta model x v
        = some ((flip_delta model x v).getD 0) := fun v hv => hsome v (hvars ▸ hv)
    have hstep : step model x
        = some (if 0 ≤ c2 then none else some (c2, flip x c1)) := by
      rw [step, hvars, hbm, hcf']
      rfl
    refine ⟨⟨fun h v hv d hd => ?_, fun hall0 => ?_⟩,
      fun d x' h => ?_, fun h => ?_⟩
    · rw [hstep] at h
      have hif := Option.some.inj h
      by_cases h0 : 0 ≤ c2
      · have h1 := hall v hv
        have h2 := hval v d hd
        rw [h2] at h1
        linarith [h0, h1]
      · rw [if_neg h0] at hif
        exact Option.noConfusion hif
    · have h0 : 0 ≤ c2 := by
        have h1 := hall0 c1 hc1mem ((flip_delta model x c1).getD 0) (hsomev c1 hc1mem)
        rw [he']
        exact h1
      rw [hstep, if_pos h0]
    · rw [hstep] at h
      have hif := Option.some.inj h
      by_cases h0 : 0 ≤ c2
      · rw [if_pos h0] at hif
        exact Option.noConfusion hif
      · rw [if_neg h0] at hif
        have hpair := Option.some.inj hif
        have hd : c2 = d := congrArg Prod.fst hpair
        have hx' : flip x c1 = x' := congrArg Prod.snd hpair
        push_neg at h0
        refine ⟨hd ▸ h0, c1, hc1mem, ?_, hx'.symm, ?_, l1, l2, hsplit, ?_⟩
        · rw [hsomev c1 hc1mem, ← he', hd]
        · intro w hw dw hdw
          have h1 := hall w hw
          rw [hval w dw hdw] at h1
          rw [← hd]
          exact h1
        · intro w hw dw hdw
          have h1 := hfirst w hw
          rw [hval w dw hdw] at h1
          rw [← hd]
          exact h1
    · rcases h with ⟨v, hv, d, hdv, hneg⟩
      have h1 := hall v hv
      rw [hval v d hdv] at h1
      have h0 : ¬0 ≤ c2 := by linarith [h1, hneg]
      exact ⟨c2, flip x c1, by rw [hstep, if_neg h0]⟩

/-- A concrete two-variable document (the example scenario of the spec). -/
def dataW : BqpData :=
  { variable_ids := [0, 1]
    linear_terms := [{ id := 0, coeff := -1 }, { id := 1, coeff := -1 }]
    quadratic_terms := [{ id_tail := 0, id_head := 1, coeff := 2 }] }

/-- The model built from `dataW`. -/
def modelW : Model := (load_model dataW).get (by rfl)

/-- A concrete document with an isolated variable `2`. -/
def dataW2 : BqpData :=
  { variable_ids := [0, 1, 2]
    linear_terms := [{ id := 2, coeff := 1 }]
    quadratic_terms := [{ id_tail := 0, id_head := 1, coeff := 1 }] }

/-- The model built from `dataW2`. -/
def modelW2 : Model := (load_model dataW2).get (by rfl)

theorem flip_delta_exact_witness :
    flip_delta modelW (fun _ => 1) 0
      = some (evaluate modelW (flip (fun _ => 1) 0)
          - evaluate modelW (fun _ => 1)) :=
  flip_delta_exact dataW modelW (fun _ => 1) 0 (by rfl) (by decide) (by decide)
    (by decide) (by decide) (fun _ => Or.inr rfl) (by rfl)

theorem step_spec_witness :
    (step modelW (fun _ => 1) = some none ↔
      ∀ v ∈ modelW.vars, ∀ d, flip_delta modelW (fun _ => 1) v = some d → 0 ≤ d)
    ∧ (∀ d x', step modelW (fun _ => 1) = some (some (d, x')) →
        d < 0 ∧ ∃ v, v ∈ modelW.vars
          ∧ flip_delta modelW (fun _ => 1) v = some d ∧ x' = flip (fun _ => 1) v
          ∧ (∀ w ∈ modelW.vars, ∀ dw,
              flip_delta modelW (fun _ => 1) w = some dw → d ≤ dw)
          ∧ ∃ l1 l2, modelW.vars = l1 ++ v :: l2
              ∧ ∀ w ∈ l1, ∀ dw,
                  flip_delta modelW (fun _ => 1) w = some dw → d < dw)
    ∧ ((∃ v ∈ modelW.vars, ∃ d,
          flip_delta modelW (fun _ => 1) v = some d ∧ d < 0) →
        ∃ d x', step modelW (fun _ => 1) = some (some (d, x'))) :=
  step_spec modelW (fun _ => 1) (by decide)

theorem lower_bound_valid_witness :
    -((modelW.linear.map (fun p => |p.2|)).sum)
      - ((modelW.quadratic.map (fun p => |p.2|)).sum)
      ≤ evaluate modelW (fun _ => 0) :=
  lower_bound_valid modelW (fun _ => 0) (fun _ => Or.inl rfl)

theorem isolated_variable_fails_witness :
    modelW2.adjacent 2 = none
    ∧ (∀ x, flip_delta modelW2 x 2 = none)
    ∧ (∀ x, step modelW2 x = none) :=
  isolated_variable_fails dataW2 modelW2 2 (by rfl) (by decide) (by decide)

end ILS

/-! ### `cmip_gurobi.py`: the Ising model, merge, domain conversion and
strong-coupling contraction -/

namespace CMIP

/-- `ordered(i, j)` of `cmip_gurobi.py`: the canonical (sorted) form of an
unordered variable pair. -/
def ordered (i j : ℕ) : ℕ × ℕ := if i < j then (i, j) else (j, i)

theorem ordered_eq_minmax (i j : ℕ) : ordered i j = (min i j, max i j) := by
  rw [ordered]
  rcases lt_trichotomy i j with h | h | h
  · rw [if_pos h, min_eq_left (le_of_lt h), max_eq_right (le_of_lt h)]
  · subst h
    rw [if_neg (lt_irrefl i), min_self, max_self]
  · rw [if_neg (not_lt_of_gt h), min_eq_right (le_of_lt h), max_eq_left (le_of_lt h)]

theorem ordered_symm (i j : ℕ) : ordered i j = ordered j i := by
  rw [ordered_eq_minmax, ordered_eq_minmax, min_comm, max_comm]

theorem ordered_ne_left {a b v : ℕ} (h : a ≠ b) : ordered a v ≠ ordered b v := by
  rw [ordered_eq_minmax, ordered_eq_minmax]
  intro hc
  rw [Prod.mk.injEq] at hc
  omega

theorem ordered_eq_iff (a b c d : ℕ) :
    ordered a b = ordered c d ↔ (a = c ∧ b = d) ∨ (a = d ∧ b = c) := by
  rw [ordered_eq_minmax, ordered_eq_minmax, Prod.mk.injEq]
  omega

theorem mul_ordered (s : ℕ → ℚ) (a b : ℕ) :
    s (ordered a b).1 * s (ordered a b).2 = s a * s b := by
  rw [ordered]
  by_cases h : a < b
  · rw [if_pos h]
  · rw [if_neg h]
    exact mul_comm _ _

/-- Python `s.add(x)` on a set modelled as a duplicate-free list. -/
def listAdd (l : List ℕ) (x : ℕ) : List ℕ := if x ∈ l then l else l ++ [x]

/-- Python `s1 |= s2` on sets modelled as duplicate-free lists. -/
def listUnion (l1 l2 : List ℕ) : List ℕ := l2.foldl listAdd l1

theorem mem_listAdd {l : List ℕ} {x y : ℕ} :
    y ∈ listAdd l x ↔ y = x ∨ y ∈ l := by
  rw [listAdd]
  by_cases h : x ∈ l
  · rw [if_pos h]
    constructor
    · exact Or.inr
    · rintro (rfl | hy)
      · exact h
      · exact hy
  · rw [if_neg h, List.mem_append, List.mem_singleton]
    tauto

theorem mem_listUnion {l1 l2 : List ℕ} {y : ℕ} :
    y ∈ listUnion l1 l2 ↔ y ∈ l1 ∨ y ∈ l2 := by
  rw [listUnion]
  induction l2 generalizing l1 with
  | nil => simp
  | cons x rest ih =>
    rw [List.foldl_cons, ih, mem_listAdd, List.mem_cons]
    tauto

/-- The `Ising` class of `cmip_gurobi.py`.  `vars` models the Python
attribute `variables` (a reserved word in Lean); the `adjacent` dict of
sets is modelled as a total function to duplicate-free lists, a missing
key being the empty list. -/
structure Ising where
  vars : List ℕ
  linear : List (ℕ × ℚ)
  quadratic : List ((ℕ × ℕ) × ℚ)
  adjacent : ℕ → List ℕ
  scale : ℚ
  offset : ℚ

/-- The body of `for v in self.adjacent[var2]` inside `Ising.merge`:
re-point `v`'s adjacency from `var2` to `var1` and move the coefficient of
`(var2, v)` onto `(var1, v)`. -/
def mergeStep (var1 var2 : ℕ) (st : (ℕ → List ℕ) × List ((ℕ × ℕ) × ℚ)) (v : ℕ) :
    (ℕ → List ℕ) × List ((ℕ × ℕ) × ℚ) :=
  let adjacent := Function.update st.1 v (listAdd ((st.1 v).erase var2) var1)
  let quadratic := dset st.2 (ordered var1 v)
    (dgetD st.2 (ordered var1 v) 0 + dgetD st.2 (ordered var2 v) 0)
  let quadratic := ddel quadratic (ordered v var2)
  (adjacent, quadratic)

/-- `Ising.merge` of `cmip_gurobi.py`: fold `var2` into `var1`.  Dict
reads that would raise `KeyError` in Python (`linear[var2]`,
`quadratic[ordered(var2, v)]`) are modelled with default `0`; the theorems
about `merge` carry hypotheses (key presence, adjacency consistency) under
which the Python run raises nothing and coincides with this model.
`del self.adjacent[var2]` is modelled as setting the entry to `[]`. -/
def Ising.merge (m : Ising) (var1 var2 : ℕ) : Ising :=
  let linear := ddel (dset m.linear var1
    (dgetD m.linear var1 0 + dgetD m.linear var2 0)) var2
  let offset := if ordered var1 var2 ∈ dkeys m.quadratic
    then m.offset + dgetD m.quadratic (ordered var1 var2) 0 else m.offset
  let quadratic := if ordered var1 var2 ∈ dkeys m.quadratic
    then ddel m.quadratic (ordered var1 var2) else m.quadratic
  let ns := (m.adjacent var2).erase var1
  let adjacent := Function.update m.adjacent var2 ns
  let st := ns.foldl (mergeStep var1 var2) (adjacent, quadratic)
  let adjacent2 := Function.update st.1 var1 (listUnion (st.1 var1) (st.1 var2))
  let adjacent3 := Function.update adjacent2 var2 []
  { vars := m.vars.erase var2
    linear := linear
    quadratic := st.2
    adjacent := adjacent3
    scale := m.scale
    offset := offset }

/-- The tuple returned by `Ising.to_boolean_domain`. -/
structure BoolDomain where
  vars : List ℕ
  linear : List (ℕ × ℚ)
  quadratic : List ((ℕ × ℕ) × ℚ)
  scale : ℚ
  offset : ℚ

/-- One iteration of the linear loop of `to_boolean_domain`:
`linear[var] = 2.0 * coeff; offset -= coeff`. -/
def boolLinStep (st : List (ℕ × ℚ) × ℚ) (p : ℕ × ℚ) : List (ℕ × ℚ) × ℚ :=
  (dset st.1 p.1 (2 * p.2), st.2 - p.2)

/-- One iteration of the quadratic loop of `to_boolean_domain`, including
the initialisation `if i not in linear: linear[i] = 0.0; linear[j] = 0.0`
exactly as the source performs it. -/
def boolQuadStep (st : List (ℕ × ℚ) × List ((ℕ × ℕ) × ℚ) × ℚ)
    (q : (ℕ × ℕ) × ℚ) : List (ℕ × ℚ) × List ((ℕ × ℕ) × ℚ) × ℚ :=
  let quadratic := if q.1 ∈ dkeys st.2.1 then st.2.1 else dset st.2.1 q.1 0
  let linear := if q.1.1 ∈ dkeys st.1 then st.1
    else dset (dset st.1 q.1.1 0) q.1.2 0
  let quadratic := dset quadratic q.1 (dgetD quadratic q.1 0 + 4 * q.2)
  let linear := dset linear q.1.1 (dgetD linear q.1.1 0 - 2 * q.2)
  let linear := dset linear q.1.2 (dgetD linear q.1.2 0 - 2 * q.2)
  (linear, quadratic, st.2.2 + q.2)

/-- `Ising.to_boolean_domain` of `cmip_gurobi.py`. -/
def Ising.to_boolean_domain (m : Ising) : BoolDomain :=
  let lin := m.linear.foldl boolLinStep ([], m.offset)
  let res := m.quadratic.foldl boolQuadStep (lin.1, [], lin.2)
  { vars := m.vars
    linear := res.1
    quadratic := res.2.1
    scale := m.scale
    offset := res.2.2 }

/-- The raw objective of the spec:
`Σ linear[v]·s[v] + Σ quadratic[(i,j)]·s[i]·s[j]`. -/
def rawObj (linear : List (ℕ × ℚ)) (quadratic : List ((ℕ × ℕ) × ℚ))
    (s : ℕ → ℚ) : ℚ :=
  msum linear s + msum quadratic (fun k => s k.1 * s k.2)

/-- A spin model on which `to_boolean_domain` mis-translates: variable 0
has no linear term while its quadratic neighbour 1 has one, so the
initialisation branch `if i not in linear: linear[i] = 0.0; linear[j] = 0.0`
overwrites the already-converted coefficient of variable 1. -/
def isingC1 : Ising :=
  { vars := [0, 1]
    linear := [(1, 1)]
    quadratic := [((0, 1), 1)]
    adjacent := fun a => if a = 0 then [1] else if a = 1 then [0] else []
    scale := 1
    offset := 0 }

/-- C1 (evidence of the code bug): on `isingC1`, at the all-ones spin
assignment (whose corresponding boolean assignment `x = (s+1)/2` is also
all-ones), the spin raw objective plus offset is `2` but the boolean raw
objective of the model returned by `to_boolean_domain` plus the returned
offset is `0` — the transform is not objective-preserving, contradicting
the claim; the spec's round-trip contract is the clear intent and the
clobbering initialisation in the code is the slip. -/
theorem to_boolean_domain_not_equivalent :
    rawObj isingC1.linear isingC1.quadratic (fun _ => 1) + isingC1.offset = 2
    ∧ rawObj isingC1.to_boolean_domain.linear isingC1.to_boolean_domain.quadratic
        (fun _ => 1) + isingC1.to_boolean_domain.offset = 0 := by
  constructor <;>
    norm_num [rawObj, msum, isingC1, Ising.to_boolean_domain, boolLinStep,
      boolQuadStep, dset, dgetD, dkeys, ddel]

/-- `mergeStep` never changes the quadratic weighted sum when the two
merged variables carry equal spin values, and it keeps keys
duplicate-free. -/
theorem mergeStep_msum (var1 var2 : ℕ) (hne : var1 ≠ var2) (s : ℕ → ℚ)
    (heq : s var1 = s var2) :
    ∀ ns : List ℕ, ∀ st : (ℕ → List ℕ) × List ((ℕ × ℕ) × ℚ),
      (dkeys st.2).Nodup →
      msum (ns.foldl (mergeStep var1 var2) st).2 (fun k => s k.1 * s k.2)
          = msum st.2 (fun k => s k.1 * s k.2)
        ∧ (dkeys (ns.foldl (mergeStep var1 var2) st).2).Nodup := by
  intro ns
  induction ns with
  | nil => exact fun st h => ⟨rfl, h⟩
  | cons v rest ih =>
    intro st h
    have hkey : ordered var1 v ≠ ordered var2 v := ordered_ne_left hne
    have hvv2 : ordered v var2 = ordered var2 v := ordered_symm v var2
    have hq1nodup : (dkeys (dset st.2 (ordered var1 v)
        (dgetD st.2 (ordered var1 v) 0 + dgetD st.2 (ordered var2 v) 0))).Nodup :=
      dkeys_dset_nodup _ _ _ h
    have hstep2 : (mergeStep var1 var2 st v).2
        = ddel (dset st.2 (ordered var1 v)
            (dgetD st.2 (ordered var1 v) 0 + dgetD st.2 (ordered var2 v) 0))
          (ordered v var2) := rfl
    have hnodup' : (dkeys (mergeStep var1 var2 st v).2).Nodup := by
      rw [hstep2]
      exact dkeys_ddel_nodup _ _ hq1nodup
    have hsum : msum (mergeStep var1 var2 st v).2 (fun k => s k.1 * s k.2)
        = msum st.2 (fun k => s k.1 * s k.2) := by
      rw [hstep2, msum_ddel _ _ _ hq1nodup, hvv2,
        dgetD_dset_ne _ _ _ (Ne.symm hkey), msum_dset _ _ _ _ h]
      rw [mul_ordered s var1 v, mul_ordered s var2 v, heq]
      ring
    rw [List.foldl_cons]
    have hrest := ih (mergeStep var1 var2 st v) hnodup'
    exact ⟨hrest.1.trans hsum, hrest.2⟩

/-- C2: objective preservation of `merge`.  For a spin model whose
adjacency view is consistent with its quadratic mapping, two distinct
variables both present in the linear mapping, and a spin assignment giving
them equal values, `raw_objective + offset` is unchanged by
`merge(var1, var2)`. -/
theorem merge_objective (m : Ising) (var1 var2 : ℕ) (s : ℕ → ℚ)
    (hnodL : (dkeys m.linear).Nodup)
    (hnodQ : (dkeys m.quadratic).Nodup)
    (hcons : ∀ a b, b ∈ m.adjacent a ↔ ordered a b ∈ dkeys m.quadratic)
    (hne : var1 ≠ var2)
    (h1 : var1 ∈ dkeys m.linear)
    (h2 : var2 ∈ dkeys m.linear)
    (hspin : ∀ v, s v = 1 ∨ s v = -1)
    (heq : s var1 = s var2) :
    rawObj m.linear m.quadratic s + m.offset
      = rawObj (m.merge var1 var2).linear (m.merge var1 var2).quadratic s
          + (m.merge var1 var2).offset := by
  have hlin : (m.merge var1 var2).linear
      = ddel (dset m.linear var1
          (dgetD m.linear var1 0 + dgetD m.linear var2 0)) var2 := rfl
  have hquad0 : (m.merge var1 var2).quadratic
      = (((m.adjacent var2).erase var1).foldl
          (mergeStep var1 var2)
          (Function.update m.adjacent var2 ((m.adjacent var2).erase var1),
            if ordered var1 var2 ∈ dkeys m.quadratic
            then ddel m.quadratic (ordered var1 var2) else m.quadratic)).2 := rfl
  have hoff : (m.merge var1 var2).offset
      = (if ordered var1 var2 ∈ dkeys m.quadratic
          then m.offset + dgetD m.quadratic (ordered var1 var2) 0 else m.offset) := rfl
  -- the linear part is preserved
  have hlinsum : msum (m.merge var1 var2).linear s = msum m.linear s := by
    rw [hlin, msum_ddel _ _ _ (dkeys_dset_nodup _ _ _ hnodL),
      dgetD_dset_ne _ _ _ (Ne.symm hne), msum_dset _ _ _ _ hnodL]
    rw [heq]
    ring
  -- the quadratic part changes exactly by the removed cross term
  have hq0nodup : (dkeys (if ordered var1 var2 ∈ dkeys m.quadratic
      then ddel m.quadratic (ordered var1 var2) else m.quadratic)).Nodup := by
    by_cases hmem : ordered var1 var2 ∈ dkeys m.quadratic
    · rw [if_pos hmem]
      exact dkeys_ddel_nodup _ _ hnodQ
    · rw [if_neg hmem]
      exact hnodQ
  have hfold := mergeStep_msum var1 var2 hne s heq
    ((m.adjacent var2).erase var1)
    (Function.update m.adjacent var2 ((m.adjacent var2).erase var1),
      if ordered var1 var2 ∈ dkeys m.quadratic
      then ddel m.quadratic (ordered var1 var2) else m.quadratic)
    hq0nodup
  have hquadsum : msum (m.merge var1 var2).quadratic (fun k => s k.1 * s k.2)
      = msum (if ordered var1 var2 ∈ dkeys m.quadratic
          then ddel m.quadratic (ordered var1 var2) else m.quadratic)
          (fun k => s k.1 * s k.2) := by
    rw [hquad0]
    exact hfold.1
  have hsq : s var1 * s var2 = 1 := by
    rw [← heq]
    rcases hspin var1 with h | h <;> rw [h] <;> norm_num
  by_cases hmem : ordered var1 var2 ∈ dkeys m.quadratic
  · have hcross : msum (ddel m.quadratic (ordered var1 var2)) (fun k => s k.1 * s k.2)
        = msum m.quadratic (fun k => s k.1 * s k.2)
          - dgetD m.quadratic (ordered var1 var2) 0 := by
      rw [msum_ddel _ _ _ hnodQ, mul_ordered s var1 var2, hsq, mul_one]
    rw [rawObj, rawObj, hlinsum, hquadsum, if_pos hmem, hcross, hoff, if_pos hmem]
    ring
  · have hcross : msum m.quadratic (fun k => s k.1 * s k.2)
        = msum m.quadratic (fun k => s k.1 * s k.2) := rfl
    rw [rawObj, rawObj, hlinsum, hquadsum, if_neg hmem, hoff, if_neg hmem]

/-- Pointwise description of the adjacency function after the neighbour
loop of `merge`: exactly the visited entries were re-pointed. -/
theorem mergeFold_adj (var1 var2 : ℕ) :
    ∀ ns : List ℕ, ∀ st : (ℕ → List ℕ) × List ((ℕ × ℕ) × ℚ),
      ns.Nodup → ∀ x,
      (ns.foldl (mergeStep var1 var2) st).1 x
        = if x ∈ ns then listAdd ((st.1 x).erase var2) var1 else st.1 x := by
  intro ns
  induction ns with
  | nil => intro st _ x; rw [if_neg (List.not_mem_nil x)]; rfl
  | cons v rest ih =>
    intro st hnd x
    rw [List.nodup_cons] at hnd
    rw [List.foldl_cons, ih (mergeStep var1 var2 st v) hnd.2 x]
    have hstep1 : (mergeStep var1 var2 st v).1
        = Function.update st.1 v (listAdd ((st.1 v).erase var2) var1) := rfl
    by_cases hx : x = v
    · subst hx
      rw [if_neg hnd.1, if_pos (List.mem_cons_self _ _), hstep1,
        Function.update_same]
    · rw [hstep1, Function.update_noteq hx]
      by_cases hr : x ∈ rest
      · rw [if_pos hr, if_pos (List.mem_cons_of_mem _ hr)]
      · rw [if_neg hr, if_neg (by rw [List.mem_cons]; tauto)]

/-- Key-set description of the quadratic dict after the neighbour loop of
`merge`: keys `(var2, v)` for visited `v` are gone, keys `(var1, v)` are
present, everything else is untouched. -/
theorem mergeFold_keys (var1 var2 : ℕ) (hne : var1 ≠ var2) :
    ∀ ns : List ℕ, ∀ st : (ℕ → List ℕ) × List ((ℕ × ℕ) × ℚ),
      (∀ v ∈ ns, v ≠ var2) → ∀ k,
      (k ∈ dkeys (ns.foldl (mergeStep var1 var2) st).2
        ↔ ((k ∈ dkeys st.2 ∧ ∀ v ∈ ns, k ≠ ordered var2 v)
            ∨ ∃ v ∈ ns, k = ordered var1 v)) := by
  intro ns
  induction ns with
  | nil =>
    intro st _ k
    constructor
    · intro h
      exact Or.inl ⟨h, fun v hv => absurd hv (List.not_mem_nil v)⟩
    · rintro (⟨h, _⟩ | ⟨v, hv, _⟩)
      · exact h
      · exact absurd hv (List.not_mem_nil v)
  | cons v0 rest ih =>
    intro st hns k
    have hv0 : v0 ≠ var2 := hns v0 (List.mem_cons_self _ _)
    have hrest : ∀ v ∈ rest, v ≠ var2 := fun v hv => hns v (List.mem_cons_of_mem _ hv)
    have ho1o2 : ∀ v : ℕ, ordered var1 v0 ≠ ordered var2 v := by
      intro v hc
      rcases (ordered_eq_iff var1 v0 var2 v).mp hc with ⟨h1, _⟩ | ⟨_, h2⟩
      · exact hne h1
      · exact hv0 h2
    have hstep2 : (mergeStep var1 var2 st v0).2
        = ddel (dset st.2 (ordered var1 v0)
            (dgetD st.2 (ordered var1 v0) 0 + dgetD st.2 (ordered var2 v0) 0))
          (ordered v0 var2) := rfl
    have hkeys_step : ∀ k', k' ∈ dkeys (mergeStep var1 var2 st v0).2
        ↔ ((k' = ordered var1 v0 ∨ k' ∈ dkeys st.2) ∧ k' ≠ ordered var2 v0) := by
      intro k'
      rw [hstep2, mem_dkeys_ddel, mem_dkeys_dset, ordered_symm v0 var2]
    rw [List.foldl_cons, ih (mergeStep var1 var2 st v0) hrest k]
    constructor
    · rintro (⟨hk, hall⟩ | ⟨v, hv, hkv⟩)
      · rcases (hkeys_step k).mp hk with ⟨ho1 | hst, hno2⟩
        · exact Or.inr ⟨v0, List.mem_cons_self _ _, ho1⟩
        · refine Or.inl ⟨hst, ?_⟩
          intro v hv
          rcases List.mem_cons.mp hv with hv | hv
          · exact hv ▸ hno2
          · exact hall v hv
      · exact Or.inr ⟨v, List.mem_cons_of_mem _ hv, hkv⟩
    · rintro (⟨hk, hall⟩ | ⟨v, hv, hkv⟩)
      · refine Or.inl ⟨(hkeys_step k).mpr
          ⟨Or.inr hk, hall v0 (List.mem_cons_self _ _)⟩, ?_⟩
        intro v hv
        exact hall v (List.mem_cons_of_mem _ hv)
      · rcases List.mem_cons.mp hv with hv | hv
        · have hk0 : k = ordered var1 v0 := by rw [hkv, hv]
          refine Or.inl ⟨(hkeys_step k).mpr
            ⟨Or.inl hk0, by rw [hk0]; exact ho1o2 v0⟩, ?_⟩
          intro w hw
          rw [hk0]
          exact ho1o2 w
        · exact Or.inr ⟨v, hv, hkv⟩

/-- C4 (amended): `merge` preserves adjacency/quadratic consistency for
every pair except `(var1, var2)` itself: after `merge(var1, var2)`, for all
`a, b` with `(a, b) ≠ (var1, var2)`, `b ∈ adjacent[a]` iff
`ordered(a, b)` is a quadratic key; the single exception is that `var2`
stays in `adjacent[var1]` exactly when `(var1, var2)` was a quadratic key
before the merge, even though that key is deleted — so the removed variable
may still be mentioned, but only by `var1`'s adjacency set. -/
theorem merge_adjacency (m : Ising) (var1 var2 : ℕ)
    (hnodQ : (dkeys m.quadratic).Nodup)
    (hkeys : ∀ p ∈ m.quadratic, p.1.1 < p.1.2)
    (hadj : ∀ x, (m.adjacent x).Nodup)
    (hcons : ∀ a b, b ∈ m.adjacent a ↔ ordered a b ∈ dkeys m.quadratic)
    (hne : var1 ≠ var2) :
    (∀ a b, ¬(a = var1 ∧ b = var2) →
      (b ∈ (m.merge var1 var2).adjacent a
        ↔ ordered a b ∈ dkeys (m.merge var1 var2).quadratic))
    ∧ (var2 ∈ (m.merge var1 var2).adjacent var1
        ↔ ordered var1 var2 ∈ dkeys m.quadratic)
    ∧ ordered var1 var2 ∉ dkeys (m.merge var1 var2).quadratic
    ∧ (∀ a, a ≠ var1 → var2 ∉ (m.merge var1 var2).adjacent a) := by
  have hkeylt : ∀ k ∈ dkeys m.quadratic, k.1 < k.2 := by
    intro k hk
    rcases mem_dkeys.mp hk with ⟨c, hc⟩
    exact hkeys (k, c) hc
  have hmemne : ∀ a b : ℕ, ordered a b ∈ dkeys m.quadratic → a ≠ b := by
    intro a b hk rfl
    have := hkeylt _ hk
    rw [ordered_eq_minmax] at this
    simp at this
    omega
  have hnsmem : ∀ v, v ∈ (m.adjacent var2).erase var1
      ↔ v ≠ var1 ∧ v ∈ m.adjacent var2 :=
    fun v => (hadj var2).mem_erase_iff
  have hnsnd : ((m.adjacent var2).erase var1).Nodup := (hadj var2).erase var1
  have hnsne2 : ∀ v ∈ (m.adjacent var2).erase var1, v ≠ var2 := by
    intro v hv
    have h2 := ((hnsmem v).mp hv).2
    exact fun hc => (hmemne var2 v ((hcons var2 v).mp h2)) hc.symm
  -- the quadratic dict before the neighbour loop
  have hq0m : ∀ k, k ∈ dkeys (if ordered var1 var2 ∈ dkeys m.quadratic
      then ddel m.quadratic (ordered var1 var2) else m.quadratic)
      ↔ (k ∈ dkeys m.quadratic ∧ k ≠ ordered var1 var2) := by
    intro k
    by_cases hmem : ordered var1 var2 ∈ dkeys m.quadratic
    · rw [if_pos hmem, mem_dkeys_ddel]
    · rw [if_neg hmem]
      constructor
      · intro h
        exact ⟨h, fun hc => hmem (hc ▸ h)⟩
      · exact fun h => h.1
  -- the merged quadratic dict, via the fold characterisation
  have hquadE : (m.merge var1 var2).quadratic
      = (((m.adjacent var2).erase var1).foldl (mergeStep var1 var2)
          (Function.update m.adjacent var2 ((m.adjacent var2).erase var1),
            if ordered var1 var2 ∈ dkeys m.quadratic
            then ddel m.quadratic (ordered var1 var2) else m.quadratic)).2 := rfl
  have hKiff : ∀ k, k ∈ dkeys (m.merge var1 var2).quadratic
      ↔ ((k ∈ dkeys m.quadratic ∧ k ≠ ordered var1 var2
            ∧ ∀ v ∈ (m.adjacent var2).erase var1, k ≠ ordered var2 v)
          ∨ ∃ v ∈ (m.adjacent var2).erase var1, k = ordered var1 v) := by
    intro k
    rw [hquadE, mergeFold_keys var1 var2 hne _ _ hnsne2 k]
    constructor
    · rintro (⟨hk, hall⟩ | hex)
      · rcases (hq0m k).mp hk with ⟨h1, h2⟩
        exact Or.inl ⟨h1, h2, hall⟩
      · exact Or.inr hex
    · rintro (⟨h1, h2, hall⟩ | hex)
      · exact Or.inl ⟨(hq0m k).mpr ⟨h1, h2⟩, hall⟩
      · exact Or.inr hex
  -- the merged adjacency function, pointwise
  have hst1 : ∀ x, (((m.adjacent var2).erase var1).foldl (mergeStep var1 var2)
      (Function.update m.adjacent var2 ((m.adjacent var2).erase var1),
        if ordered var1 var2 ∈ dkeys m.quadratic
        then ddel m.quadratic (ordered var1 var2) else m.quadratic)).1 x
      = if x ∈ (m.adjacent var2).erase var1
        then listAdd (((Function.update m.adjacent var2
            ((m.adjacent var2).erase var1)) x).erase var2) var1
        else (Function.update m.adjacent var2 ((m.adjacent var2).erase var1)) x :=
    mergeFold_adj var1 var2 _ _ hnsnd
  have hst1_var1 : (((m.adjacent var2).erase var1).foldl (mergeStep var1 var2)
      (Function.update m.adjacent var2 ((m.adjacent var2).erase var1),
        if ordered var1 var2 ∈ dkeys m.quadratic
        then ddel m.quadratic (ordered var1 var2) else m.quadratic)).1 var1
      = m.adjacent var1 := by
    rw [hst1 var1, if_neg (fun hc => ((hnsmem var1).mp hc).1 rfl),
      Function.update_noteq hne]
  have hst1_var2 : (((m.adjacent var2).erase var1).foldl (mergeStep var1 var2)
      (Function.update m.adjacent var2 ((m.adjacent var2).erase var1),
        if ordered var1 var2 ∈ dkeys m.quadratic
        then ddel m.quadratic (ordered var1 var2) else m.quadratic)).1 var2
      = (m.adjacent var2).erase var1 := by
    rw [hst1 var2, if_neg (fun hc => (hnsne2 var2 hc) rfl), Function.update_same]
  have hadjE : (m.merge var1 var2).adjacent
      = Function.update (Function.update (((m.adjacent var2).erase var1).foldl (mergeStep var1 var2)
      (Function.update m.adjacent var2 ((m.adjacent var2).erase var1),
        if ordered var1 var2 ∈ dkeys m.quadratic
        then ddel m.quadratic (ordered var1 var2) else m.quadratic)).1 var1
          (listUnion ((((m.adjacent var2).erase var1).foldl (mergeStep var1 var2)
      (Function.update m.adjacent var2 ((m.adjacent var2).erase var1),
        if ordered var1 var2 ∈ dkeys m.quadratic
        then ddel m.quadratic (ordered var1 var2) else m.quadratic)).1 var1) ((((m.adjacent var2).erase var1).foldl (mergeStep var1 var2)
      (Function.update m.adjacent var2 ((m.adjacent var2).erase var1),
        if ordered var1 var2 ∈ dkeys m.quadratic
        then ddel m.quadratic (ordered var1 var2) else m.quadratic)).1 var2))) var2 ([] : List ℕ) := rfl
  have hA_var2 : (m.merge var1 var2).adjacent var2 = [] := by
    rw [hadjE, Function.update_same]
  have hA_var1 : (m.merge var1 var2).adjacent var1
      = listUnion (m.adjacent var1) ((m.adjacent var2).erase var1) := by
    rw [hadjE, Function.update_noteq hne, Function.update_same, hst1_var1, hst1_var2]
  have hA_other : ∀ a, a ≠ var1 → a ≠ var2 → (m.merge var1 var2).adjacent a
      = if a ∈ (m.adjacent var2).erase var1
        then listAdd ((m.adjacent a).erase var2) var1 else m.adjacent a := by
    intro a ha1 ha2
    rw [hadjE, Function.update_noteq ha2, Function.update_noteq ha1, hst1 a,
      Function.update_noteq ha2]
  refine ⟨?_, ?_, ?_, ?_⟩
  · -- consistency for every pair except (var1, var2)
    intro a b hab
    by_cases ha2 : a = var2
    · rw [ha2, hA_var2]
      constructor
      · intro hc
        exact absurd hc (List.not_mem_nil b)
      · intro hmem
        exfalso
        rcases (hKiff _).mp hmem with ⟨hk, hno12, hall⟩ | ⟨v, hv, hkv⟩
        · have hbadj : b ∈ m.adjacent var2 := (hcons var2 b).mpr hk
          have hbne1 : b ≠ var1 := by
            intro hc
            refine hno12 ?_
            rw [hc]
            exact ordered_symm var2 var1
          exact hall b ((hnsmem b).mpr ⟨hbne1, hbadj⟩) rfl
        · rcases (ordered_eq_iff var2 b var1 v).mp hkv with ⟨h1, _⟩ | ⟨h1, _⟩
          · exact hne h1.symm
          · exact (hnsne2 v hv) h1.symm
    · by_cases ha1 : a = var1
      · have hbne2 : b ≠ var2 := fun hc => hab ⟨ha1, hc⟩
        rw [ha1, hA_var1, mem_listUnion, hKiff]
        constructor
        · rintro (h | h)
          · refine Or.inl ⟨(hcons var1 b).mp h, ?_, ?_⟩
            · intro hc
              rcases (ordered_eq_iff var1 b var1 var2).mp hc with ⟨_, h2⟩ | ⟨h1, _⟩
              · exact hbne2 h2
              · exact hne h1
            · intro v hv hc
              rcases (ordered_eq_iff var1 b var2 v).mp hc with ⟨h1, _⟩ | ⟨_, h2⟩
              · exact hne h1
              · exact hbne2 h2
          · exact Or.inr ⟨b, h, rfl⟩
        · rintro (⟨hk, _, _⟩ | ⟨v, hv, hkv⟩)
          · exact Or.inl ((hcons var1 b).mpr hk)
          · rcases (ordered_eq_iff var1 b var1 v).mp hkv with ⟨_, h2⟩ | ⟨h1, _⟩
            · refine Or.inr ?_
              rw [h2]
              exact hv
            · exact absurd h1.symm ((hnsmem v).mp hv).1
      · rw [hA_other a ha1 ha2, hKiff]
        by_cases hans : a ∈ (m.adjacent var2).erase var1
        · rw [if_pos hans]
          constructor
          · intro hmem
            rcases mem_listAdd.mp hmem with hb1 | hb
            · refine Or.inr ⟨a, hans, ?_⟩
              rw [hb1, ordered_symm a var1]
            · have hb2 := (hadj a).mem_erase_iff.mp hb
              refine Or.inl ⟨(hcons a b).mp hb2.2, ?_, ?_⟩
              · intro hc
                rcases (ordered_eq_iff a b var1 var2).mp hc with ⟨h1, _⟩ | ⟨h1, _⟩
                · exact ha1 h1
                · exact ha2 h1
              · intro v hv hc
                rcases (ordered_eq_iff a b var2 v).mp hc with ⟨h1, _⟩ | ⟨_, h2⟩
                · exact ha2 h1
                · exact hb2.1 h2
          · rintro (⟨hk, hno12, hall⟩ | ⟨v, hv, hkv⟩)
            · have hbadj : b ∈ m.adjacent a := (hcons a b).mpr hk
              have hbne2 : b ≠ var2 := by
                intro hc
                refine hall a hans ?_
                rw [hc]
                exact ordered_symm a var2
              exact mem_listAdd.mpr
                (Or.inr ((hadj a).mem_erase_iff.mpr ⟨hbne2, hbadj⟩))
            · rcases (ordered_eq_iff a b var1 v).mp hkv with ⟨h1, _⟩ | ⟨_, h2⟩
              · exact absurd h1 ha1
              · exact mem_listAdd.mpr (Or.inl h2)
        · rw [if_neg hans]
          constructor
          · intro hmem
            refine Or.inl ⟨(hcons a b).mp hmem, ?_, ?_⟩
            · intro hc
              rcases (ordered_eq_iff a b var1 var2).mp hc with ⟨h1, _⟩ | ⟨h1, _⟩
              · exact ha1 h1
              · exact ha2 h1
            · intro v hv hc
              rcases (ordered_eq_iff a b var2 v).mp hc with ⟨h1, _⟩ | ⟨h1, _⟩
              · exact ha2 h1
              · exact hans (h1 ▸ hv)
          · rintro (⟨hk, _, _⟩ | ⟨v, hv, hkv⟩)
            · exact (hcons a b).mpr hk
            · rcases (ordered_eq_iff a b var1 v).mp hkv with ⟨h1, _⟩ | ⟨h1, _⟩
              · exact absurd h1 ha1
              · exact absurd (h1 ▸ hv) hans
  · -- the exception: var2 survives in adjacent[var1] iff they were coupled
    rw [hA_var1, mem_listUnion]
    constructor
    · rintro (h | h)
      · exact (hcons var1 var2).mp h
      · exact absurd rfl (hnsne2 var2 h)
    · intro h
      exact Or.inl ((hcons var1 var2).mpr h)
  · -- the (var1, var2) key itself is gone
    intro hmem
    rcases (hKiff _).mp hmem with ⟨_, hne12, _⟩ | ⟨v, hv, hkv⟩
    · exact hne12 rfl
    · rcases (ordered_eq_iff var1 var2 var1 v).mp hkv with ⟨_, h2⟩ | ⟨h1, _⟩
      · exact (hnsne2 v hv) h2.symm
      · exact ((hnsmem v).mp hv).1 h1.symm
  · -- no adjacency set other than var1 mentions var2
    intro a ha1
    by_cases ha2 : a = var2
    · rw [ha2, hA_var2]
      exact List.not_mem_nil var2
    · rw [hA_other a ha1 ha2]
      by_cases hans : a ∈ (m.adjacent var2).erase var1
      · rw [if_pos hans]
        intro hc
        rcases mem_listAdd.mp hc with hc | hc
        · exact hne hc.symm
        · exact ((hadj a).mem_erase_iff.mp hc).1 rfl
      · rw [if_neg hans]
        intro hc
        have h1 := (hcons a var2).mp hc
        have h2 : a ∈ m.adjacent var2 := by
          refine (hcons var2 a).mpr ?_
          rw [ordered_symm var2 a]
          exact h1
        exact hans ((hnsmem a).mpr ⟨ha1, h2⟩)

/-- A concrete two-variable spin model used to witness `merge_objective`. -/
def isingC2 : Ising :=
  { vars := [1, 2]
    linear := [(1, 2), (2, 3)]
    quadratic := [((1, 2), 5)]
    adjacent := fun a => if a = 1 then [2] else if a = 2 then [1] else []
    scale := 1
    offset := 7 }

theorem isingC2_consistent :
    ∀ a b, b ∈ isingC2.adjacent a ↔ ordered a b ∈ dkeys isingC2.quadratic := by
  intro a b
  have hmem : ordered a b ∈ dkeys isingC2.quadratic ↔ (min a b = 1 ∧ max a b = 2) := by
    rw [ordered_eq_minmax]
    show (min a b, max a b) ∈ [(1, 2)] ↔ _
    rw [List.mem_singleton, Prod.mk.injEq]
  rw [hmem]
  show b ∈ (if a = 1 then [2] else if a = 2 then [1] else ([] : List ℕ)) ↔ _
  by_cases ha1 : a = 1
  · subst ha1
    rw [if_pos rfl, List.mem_singleton]
    omega
  · by_cases ha2 : a = 2
    · subst ha2
      rw [if_neg (by omega), if_pos rfl, List.mem_singleton]
      omega
    · rw [if_neg ha1, if_neg ha2]
      constructor
      · intro hc
        exact absurd hc (List.not_mem_nil b)
      · intro hc
        omega

theorem isingC2_adj_nodup : ∀ x, (isingC2.adjacent x).Nodup := by
  intro x
  show (if x = 1 then [2] else if x = 2 then [1] else ([] : List ℕ)).Nodup
  by_cases h1 : x = 1
  · rw [if_pos h1]
    exact List.nodup_cons.mpr ⟨List.not_mem_nil 2, List.nodup_nil⟩
  · rw [if_neg h1]
    by_cases h2 : x = 2
    · rw [if_pos h2]
      exact List.nodup_cons.mpr ⟨List.not_mem_nil 1, List.nodup_nil⟩
    · rw [if_neg h2]
      exact List.nodup_nil

/-- C4 (counterexample): on a well-formed two-variable model whose
adjacency view is consistent with its quadratic mapping, after
`merge(1, 2)` the removed variable `2` is still mentioned by `adjacent[1]`
even though `(1, 2)` is no longer a quadratic key — so the claimed
preservation of consistency, and in particular "no adjacency set mentions
the removed variable", is false on the code. -/
theorem merge_adjacency_counterexample :
    (∀ a b, b ∈ isingC2.adjacent a ↔ ordered a b ∈ dkeys isingC2.quadratic)
    ∧ (dkeys isingC2.quadratic).Nodup
    ∧ (∀ p ∈ isingC2.quadratic, p.1.1 < p.1.2)
    ∧ (∀ x, (isingC2.adjacent x).Nodup)
    ∧ (1 : ℕ) ≠ 2
    ∧ 2 ∈ (isingC2.merge 1 2).adjacent 1
    ∧ ordered 1 2 ∉ dkeys (isingC2.merge 1 2).quadratic :=
  ⟨isingC2_consistent, by decide, by decide, isingC2_adj_nodup, by decide,
    by decide, by decide⟩

theorem merge_adjacency_witness :
    (∀ a b, ¬(a = 1 ∧ b = 2) →
      (b ∈ (isingC2.merge 1 2).adjacent a
        ↔ ordered a b ∈ dkeys (isingC2.merge 1 2).quadratic))
    ∧ (2 ∈ (isingC2.merge 1 2).adjacent 1
        ↔ ordered 1 2 ∈ dkeys isingC2.quadratic)
    ∧ ordered 1 2 ∉ dkeys (isingC2.merge 1 2).quadratic
    ∧ (∀ a, a ≠ 1 → 2 ∉ (isingC2.merge 1 2).adjacent a) :=
  merge_adjacency isingC2 1 2 (by decide) (by decide) isingC2_adj_nodup
    isingC2_consistent (by decide)

theorem merge_objective_witness :
    rawObj isingC2.linear isingC2.quadratic (fun _ => 1) + isingC2.offset
      = rawObj (isingC2.merge 1 2).linear (isingC2.merge 1 2).quadratic (fun _ => 1)
          + (isingC2.merge 1 2).offset :=
  merge_objective isingC2 1 2 (fun _ => 1) (by decide) (by decide)
    isingC2_consistent (by decide) (by decide) (by decide)
    (fun _ => Or.inl rfl) rfl

/-! ### Union-find (`UnionFind` of `cmip_gurobi.py`) and the contraction -/

/-- Connectivity in a graph given by an edge relation: the equivalence
closure (reflexive, symmetric, transitive) of the relation. -/
inductive Conn (r : ℕ → ℕ → Prop) : ℕ → ℕ → Prop
  | rel {a b : ℕ} : r a b → Conn r a b
  | refl (a : ℕ) : Conn r a a
  | symm {a b : ℕ} : Conn r a b → Conn r b a
  | trans {a b c : ℕ} : Conn r a b → Conn r b c → Conn r a c

theorem Conn_mono {r r' : ℕ → ℕ → Prop} (h : ∀ a b, r a b → r' a b) :
    ∀ {x y}, Conn r x y → Conn r' x y := by
  intro x y hc
  induction hc with
  | rel hr => exact Conn.rel (h _ _ hr)
  | refl a => exact Conn.refl a
  | symm _ ih => exact Conn.symm ih
  | trans _ _ ih1 ih2 => exact Conn.trans ih1 ih2

theorem Conn_iff_of_iff {r r' : ℕ → ℕ → Prop} (h : ∀ a b, r a b ↔ r' a b)
    (x y : ℕ) : Conn r x y ↔ Conn r' x y :=
  ⟨Conn_mono (fun a b => (h a b).mp), Conn_mono (fun a b => (h a b).mpr)⟩

theorem Conn_empty (x y : ℕ) : Conn (fun _ _ => False) x y ↔ x = y := by
  constructor
  · intro hc
    induction hc with
    | rel hr => exact hr.elim
    | refl a => rfl
    | symm _ ih => exact ih.symm
    | trans _ _ ih1 ih2 => exact ih1.trans ih2
  · rintro rfl
    exact Conn.refl x

/-- Adding one edge `(i, j)` to a relation joins exactly the two
connectivity classes of `i` and `j`. -/
theorem Conn_add_edge (r : ℕ → ℕ → Prop) (i j : ℕ) :
    ∀ x y, Conn (fun a b => r a b ∨ (a = i ∧ b = j)) x y
      ↔ (Conn r x y ∨ (Conn r x i ∧ Conn r j y) ∨ (Conn r x j ∧ Conn r i y)) := by
  intro x y
  constructor
  · intro hc
    induction hc with
    | rel hr =>
      rcases hr with hr | ⟨rfl, rfl⟩
      · exact Or.inl (Conn.rel hr)
      · exact Or.inr (Or.inl ⟨Conn.refl _, Conn.refl _⟩)
    | refl a => exact Or.inl (Conn.refl a)
    | symm _ ih =>
      rcases ih with h | ⟨h1, h2⟩ | ⟨h1, h2⟩
      · exact Or.inl (Conn.symm h)
      · exact Or.inr (Or.inr ⟨Conn.symm h2, Conn.symm h1⟩)
      · exact Or.inr (Or.inl ⟨Conn.symm h2, Conn.symm h1⟩)
    | trans _ _ ih1 ih2 =>
      rcases ih1 with h | ⟨h1, h2⟩ | ⟨h1, h2⟩ <;>
        rcases ih2 with g | ⟨g1, g2⟩ | ⟨g1, g2⟩
      · exact Or.inl (Conn.trans h g)
      · exact Or.inr (Or.inl ⟨Conn.trans h g1, g2⟩)
      · exact Or.inr (Or.inr ⟨Conn.trans h g1, g2⟩)
      · exact Or.inr (Or.inl ⟨h1, Conn.trans h2 g⟩)
      · exact Or.inr (Or.inl ⟨h1, g2⟩)
      · exact Or.inl (Conn.trans h1 g2)
      · exact Or.inr (Or.inr ⟨h1, Conn.trans h2 g⟩)
      · exact Or.inl (Conn.trans h1 g2)
      · exact Or.inr (Or.inr ⟨h1, g2⟩)
  · have hedge : Conn (fun a b => r a b ∨ (a = i ∧ b = j)) i j :=
      Conn.rel (Or.inr ⟨rfl, rfl⟩)
    have hmono : ∀ {u v}, Conn r u v → Conn (fun a b => r a b ∨ (a = i ∧ b = j)) u v :=
      Conn_mono (fun a b h => Or.inl h)
    rintro (h | ⟨h1, h2⟩ | ⟨h1, h2⟩)
    · exact hmono h
    · exact Conn.trans (hmono h1) (Conn.trans hedge (hmono h2))
    · exact Conn.trans (hmono h1) (Conn.trans (Conn.symm hedge) (hmono h2))

namespace UnionFind

/-- `UnionFind.__init__`: `self._parent = list(range(n))`. -/
def init (n : ℕ) : List ℕ := List.range n

/-- Reading `self._parent[a]`.  Ids outside the list act as their own
parent (Python would raise `IndexError`; the contraction only ever touches
ids below the list length). -/
def parentOf (parent : List ℕ) (a : ℕ) : ℕ := parent.getD a a

/-- The `while` loop of `UnionFind.find` (path halving), with explicit
fuel; `find` runs it with fuel `len(parent)`, which always suffices for a
grounded parent array (`findAux_spec` and `chain_shorten`). -/
def findAux : ℕ → List ℕ → ℕ → List ℕ × ℕ
  | 0, parent, a => (parent, a)
  | fuel + 1, parent, a =>
    if a = parentOf parent a then (parent, a)
    else
      let pa2 := parentOf parent (parentOf parent a)
      findAux fuel (parent.set a pa2) pa2

/-- `UnionFind.find` of `cmip_gurobi.py`. -/
def find (parent : List ℕ) (a : ℕ) : List ℕ × ℕ := findAux parent.length parent a

/-- `UnionFind.union` of `cmip_gurobi.py`:
`a = find(a); b = find(b); parent[a] = b`. -/
def union (parent : List ℕ) (a b : ℕ) : List ℕ :=
  let fa := find parent a
  let fb := find fa.1 b
  fb.1.set fa.2 fb.2

/-- `a` reaches the root `r` in exactly `k` parent steps. -/
def Chain (parent : List ℕ) (a r k : ℕ) : Prop :=
  (parentOf parent)^[k] a = r ∧ parentOf parent r = r

/-- Every id reaches some root. -/
def Ground (parent : List ℕ) : Prop := ∀ a, ∃ r k, Chain parent a r k

/-- The parent array has the right length and in-range entries. -/
def Bounded (n : ℕ) (parent : List ℕ) : Prop :=
  parent.length = n ∧ ∀ x ∈ parent, x < n

/-- Two ids lie in the same union-find class. -/
def SameRoot (parent : List ℕ) (a b : ℕ) : Prop :=
  ∃ r j k, Chain parent a r j ∧ Chain parent b r k

theorem chain_root (parent : List ℕ) {r : ℕ} (h : parentOf parent r = r) :
    Chain parent r r 0 := ⟨rfl, h⟩

theorem chain_unique {parent : List ℕ} {a r r' k k' : ℕ}
    (h1 : Chain parent a r k) (h2 : Chain parent a r' k') : r = r' := by
  rcases h1 with ⟨hit1, hr1⟩
  rcases h2 with ⟨hit2, hr2⟩
  rcases le_total k k' with hle | hle
  · have : (parentOf parent)^[k'] a = r := by
      have hk : k' = (k' - k) + k := by omega
      rw [hk, Function.iterate_add_apply, hit1, Function.iterate_fixed hr1]
    rw [this] at hit2
    exact hit2
  · have : (parentOf parent)^[k] a = r' := by
      have hk : k = (k - k') + k' := by omega
      rw [hk, Function.iterate_add_apply, hit2, Function.iterate_fixed hr2]
    rw [this] at hit1
    exact hit1.symm

theorem chain_succ {parent : List ℕ} {a r k : ℕ} :
    Chain parent a r (k + 1) ↔ Chain parent (parentOf parent a) r k := by
  unfold Chain
  rw [Function.iterate_succ_apply]

theorem sameRoot_refl (parent : List ℕ) (hg : Ground parent) (a : ℕ) :
    SameRoot parent a a := by
  rcases hg a with ⟨r, k, hch⟩
  exact ⟨r, k, k, hch, hch⟩

theorem sameRoot_symm {parent : List ℕ} {a b : ℕ} (h : SameRoot parent a b) :
    SameRoot parent b a := by
  rcases h with ⟨r, j, k, h1, h2⟩
  exact ⟨r, k, j, h2, h1⟩

theorem sameRoot_trans {parent : List ℕ} {a b c : ℕ}
    (h1 : SameRoot parent a b) (h2 : SameRoot parent b c) :
    SameRoot parent a c := by
  rcases h1 with ⟨r, j, k, ha, hb⟩
  rcases h2 with ⟨r', j', k', hb', hc⟩
  rcases chain_unique hb hb' with rfl
  exact ⟨r, j, k', ha, hc⟩

theorem parentOf_lt_length {parent : List ℕ} {a : ℕ}
    (h : parentOf parent a ≠ a) : a < parent.length := by
  by_contra hc
  push_neg at hc
  exact h (List.getD_eq_default parent a hc)

theorem parentOf_set_self {parent : List ℕ} {a v : ℕ} (h : a < parent.length) :
    parentOf (parent.set a v) a = v := by
  unfold parentOf
  rw [List.getD_eq_getElem?_getD, List.getElem?_set_self (by simpa using h)]
  rfl

theorem parentOf_set_ne (parent : List ℕ) {a x : ℕ} (v : ℕ) (h : x ≠ a) :
    parentOf (parent.set a v) x = parentOf parent x := by
  unfold parentOf
  rw [List.getD_eq_getElem?_getD, List.getElem?_set_ne (fun hc => h hc.symm),
    ← List.getD_eq_getElem?_getD]

theorem parentOf_set_value (parent : List ℕ) {a v : ℕ}
    (hv : parentOf parent a = v) : ∀ x, parentOf (parent.set a v) x = parentOf parent x := by
  intro x
  by_cases hx : x = a
  · subst hx
    by_cases hl : x < parent.length
    · rw [parentOf_set_self hl, hv]
    · push_neg at hl
      unfold parentOf
      rw [List.set_eq_of_length_le hl]
  · exact parentOf_set_ne parent v hx

theorem chain_congr {p1 p2 : List ℕ}
    (h : ∀ x, parentOf p1 x = parentOf p2 x) {a r k : ℕ} :
    Chain p1 a r k → Chain p2 a r k := by
  intro ⟨hit, hr⟩
  have hiter : ∀ j x, (parentOf p1)^[j] x = (parentOf p2)^[j] x := by
    intro j
    induction j with
    | zero => intro x; rfl
    | succ j ih =>
      intro x
      rw [Function.iterate_succ_apply, Function.iterate_succ_apply, h x, ih]
  exact ⟨by rw [← hiter k a]; exact hit, by rw [← h r]; exact hr⟩

/-- One path-halving write preserves every chain (possibly shortening it):
setting `parent[a] = parent[parent[a]]` for a non-root `a`. -/
theorem chain_set_transfer (parent : List ℕ) (a : ℕ)
    (hna : parentOf parent a ≠ a) :
    ∀ k x r, Chain parent x r k →
      ∃ k' ≤ k, Chain (parent.set a (parentOf parent (parentOf parent a))) x r k' := by
  have ha : a < parent.length := parentOf_lt_length hna
  intro k
  induction k using Nat.strong_induction_on with
  | _ k ih =>
    intro x r hch
    rcases k with _ | j
    · have hxr : x = r := hch.1
      have hr : parentOf parent r = r := hch.2
      have hra : r ≠ a := fun hc => hna (by rw [← hc]; exact hr)
      subst hxr
      exact ⟨0, le_refl 0,
        chain_root _ (by rw [parentOf_set_ne parent _ hra]; exact hr)⟩
    · have hch1 : Chain parent (parentOf parent x) r j := chain_succ.mp hch
      by_cases hxa : x = a
      · subst hxa
        rcases j with _ | i
        · have hpr : parentOf parent x = r := hch1.1
          have hrr : parentOf parent r = r := hch1.2
          have hra : r ≠ x := fun hc => hna (by rw [← hc]; exact hrr)
          refine ⟨1, le_refl 1, chain_succ.mpr ?_⟩
          have hpa2 : parentOf (parent.set x (parentOf parent (parentOf parent x))) x
              = r := by
            rw [parentOf_set_self ha, hpr, hrr]
          rw [hpa2]
          exact chain_root _ (by rw [parentOf_set_ne parent _ hra]; exact hrr)
        · have hch2 : Chain parent (parentOf parent (parentOf parent x)) r i :=
            chain_succ.mp hch1
          obtain ⟨i', hi', hch'⟩ := ih i (by omega) _ r hch2
          refine ⟨i' + 1, by omega, chain_succ.mpr ?_⟩
          rw [parentOf_set_self ha]
          exact hch'
      · obtain ⟨j', hj', hch'⟩ := ih j (by omega) _ r hch1
        refine ⟨j' + 1, by omega, chain_succ.mpr ?_⟩
        rw [parentOf_set_ne parent _ hxa]
        exact hch'

/-- `findAux` returns the root of its argument and preserves every
node's root, provided the fuel covers the chain length. -/
theorem findAux_spec :
    ∀ fuel parent a r k, Chain parent a r k → k ≤ fuel →
      (findAux fuel parent a).2 = r
      ∧ ∀ x s j, Chain parent x s j →
          ∃ j' ≤ j, Chain (findAux fuel parent a).1 x s j' := by
  intro fuel
  induction fuel with
  | zero =>
    intro parent a r k hch hk
    have hk0 : k = 0 := Nat.le_zero.mp hk
    subst hk0
    exact ⟨hch.1, fun x s j hx => ⟨j, le_refl j, hx⟩⟩
  | succ fuel ih =>
    intro parent a r k hch hk
    by_cases hroot : a = parentOf parent a
    · rw [findAux, if_pos hroot]
      refine ⟨?_, fun x s j hx => ⟨j, le_refl j, hx⟩⟩
      exact chain_unique (chain_root parent hroot.symm) hch
    · have hna : parentOf parent a ≠ a := fun hc => hroot hc.symm
      rcases k with _ | j
      · exfalso
        have hra : a = r := hch.1
        exact hna (by rw [hra]; exact hch.2)
      · have hch1 : Chain parent (parentOf parent a) r j := chain_succ.mp hch
        have hmain : ∃ k'', k'' ≤ fuel ∧
            Chain (parent.set a (parentOf parent (parentOf parent a)))
              (parentOf parent (parentOf parent a)) r k'' := by
          rcases j with _ | i
          · have hpr : parentOf parent a = r := hch1.1
            have hrr : parentOf parent r = r := hch1.2
            have hra : r ≠ a := fun hc => hna (by rw [← hc]; exact hrr)
            refine ⟨0, Nat.zero_le _, ?_⟩
            have hpa2 : parentOf parent (parentOf parent a) = r := by
              rw [hpr, hrr]
            rw [hpa2]
            exact chain_root _ (by rw [parentOf_set_ne parent _ hra]; exact hrr)
          · have hch2 : Chain parent (parentOf parent (parentOf parent a)) r i :=
              chain_succ.mp hch1
            obtain ⟨i', hi', hch'⟩ := chain_set_transfer parent a hna i _ r hch2
            exact ⟨i', by omega, hch'⟩
        obtain ⟨k'', hk'', hch''⟩ := hmain
        obtain ⟨hroot', htrans'⟩ := ih (parent.set a (parentOf parent (parentOf parent a)))
          (parentOf parent (parentOf parent a)) r k'' hch'' hk''
        rw [findAux, if_neg hroot]
        refine ⟨hroot', ?_⟩
        intro x s jj hx
        obtain ⟨j1, hj1, hx1⟩ := chain_set_transfer parent a hna jj x s hx
        obtain ⟨j2, hj2, hx2⟩ := htrans' x s j1 hx1
        exact ⟨j2, le_trans hj2 hj1, hx2⟩

/-- Any chain can be shortened to length at most `len(parent)`. -/
theorem chain_shorten (parent : List ℕ) :
    ∀ k a r, Chain parent a r k → ∃ k' ≤ parent.length, Chain parent a r k' := by
  intro k
  induction k using Nat.strong_induction_on with
  | _ k ih =>
    intro a r hch
    by_cases hk : k ≤ parent.length
    · exact ⟨k, hk, hch⟩
    · push_neg at hk
      by_cases hroot : ∃ t, t ≤ parent.length
          ∧ parentOf parent ((parentOf parent)^[t] a) = (parentOf parent)^[t] a
      · obtain ⟨t, ht, hfix⟩ := hroot
        have hiter : (parentOf parent)^[k] a = (parentOf parent)^[t] a := by
          have hk2 : k = (k - t) + t := by omega
          rw [hk2, Function.iterate_add_apply, Function.iterate_fixed hfix]
        have hr : r = (parentOf parent)^[t] a := by rw [← hch.1, hiter]
        refine ⟨t, ht, ?_, ?_⟩
        · rw [hr]
        · rw [hr]; exact hfix
      · push_neg at hroot
        have hlt : ∀ t : Fin (parent.length + 1),
            (parentOf parent)^[(t : ℕ)] a < parent.length := by
          intro t
          exact parentOf_lt_length (hroot t (Nat.lt_succ_iff.mp t.2))
        obtain ⟨t1, t2, hne12, heq⟩ := Fintype.exists_ne_map_eq_of_card_lt
          (fun t : Fin (parent.length + 1) =>
            (⟨(parentOf parent)^[(t : ℕ)] a, hlt t⟩ : Fin parent.length))
          (by simp)
        have heq2 : (parentOf parent)^[(t1 : ℕ)] a = (parentOf parent)^[(t2 : ℕ)] a := by
          have := congrArg Fin.val heq
          simpa using this
        have hmain : ∀ u v : ℕ, u < v → v ≤ parent.length →
            (parentOf parent)^[u] a = (parentOf parent)^[v] a →
            ∃ k' ≤ parent.length, Chain parent a r k' := by
          intro u v huv hv hiter
          have hcut : (parentOf parent)^[k - v + u] a = r := by
            have hk2 : k = (k - v) + v := by omega
            calc (parentOf parent)^[k - v + u] a
                = (parentOf parent)^[k - v] ((parentOf parent)^[u] a) := by
                  rw [Function.iterate_add_apply]
              _ = (parentOf parent)^[k - v] ((parentOf parent)^[v] a) := by rw [hiter]
              _ = (parentOf parent)^[(k - v) + v] a := by rw [Function.iterate_add_apply]
              _ = r := by rw [← hk2]; exact hch.1
          exact ih (k - v + u) (by omega) a r ⟨hcut, hch.2⟩
        rcases Nat.lt_or_ge (t1 : ℕ) (t2 : ℕ) with h12 | h12
        · exact hmain t1 t2 h12 (Nat.lt_succ_iff.mp t2.2) heq2
        · have h21 : (t2 : ℕ) < (t1 : ℕ) := by
            rcases Nat.lt_or_ge (t2 : ℕ) (t1 : ℕ) with h | h
            · exact h
            · exact absurd (Fin.ext (by omega)) hne12
          exact hmain t2 t1 h21 (Nat.lt_succ_iff.mp t1.2) heq2.symm

/-- `find` returns the root and preserves every node's root. -/
theorem find_spec (parent : List ℕ) (a r k : ℕ) (hch : Chain parent a r k) :
    (find parent a).2 = r
    ∧ ∀ x s j, Chain parent x s j → ∃ j' ≤ j, Chain (find parent a).1 x s j' := by
  obtain ⟨k', hk', hch'⟩ := chain_shorten parent k a r hch
  exact findAux_spec parent.length parent a r k' hch' hk'

theorem parentOf_lt (n : ℕ) {parent : List ℕ} (hb : Bounded n parent) {x : ℕ}
    (hx : x < n) : parentOf parent x < n := by
  have hxl : x < parent.length := by rw [hb.1]; exact hx
  unfold parentOf
  rw [List.getD_eq_getElem?_getD, List.getElem?_eq_getElem hxl]
  exact hb.2 _ (List.getElem_mem hxl)

theorem findAux_bounded (n : ℕ) :
    ∀ fuel parent a, Bounded n parent → Bounded n (findAux fuel parent a).1 := by
  intro fuel
  induction fuel with
  | zero => intro parent a h; exact h
  | succ fuel ih =>
    intro parent a h
    by_cases hroot : a = parentOf parent a
    · rw [findAux, if_pos hroot]; exact h
    · rw [findAux, if_neg hroot]
      have hna : parentOf parent a ≠ a := fun hc => hroot hc.symm
      have ha : a < parent.length := parentOf_lt_length hna
      have han : a < n := by rw [← h.1]; exact ha
      refine ih (parent.set a (parentOf parent (parentOf parent a)))
        (parentOf parent (parentOf parent a)) ⟨?_, ?_⟩
      · rw [List.length_set]; exact h.1
      · intro x hx
        rcases List.mem_or_eq_of_mem_set hx with hx | rfl
        · exact h.2 x hx
        · exact parentOf_lt n h (parentOf_lt n h han)

theorem find_bounded (n : ℕ) (parent : List ℕ) (a : ℕ) (h : Bounded n parent) :
    Bounded n (find parent a).1 :=
  findAux_bounded n parent.length parent a h

theorem chain_lt (n : ℕ) {parent : List ℕ} (hb : Bounded n parent) :
    ∀ k {x r : ℕ}, x < n → Chain parent x r k → r < n := by
  intro k
  induction k with
  | zero => intro x r hx hch; rw [← hch.1]; exact hx
  | succ k ih =>
    intro x r hx hch
    exact ih (parentOf_lt n hb hx) (chain_succ.mp hch)

/-- `find` keeps the union-find partition intact: groundedness, each
node's root, and the root of the argument itself. -/
theorem find_props (parent : List ℕ) (a : ℕ) (hg : Ground parent) :
    Ground (find parent a).1
    ∧ (∃ k, Chain parent a (find parent a).2 k)
    ∧ (∀ x s, (∃ j, Chain parent x s j) ↔ (∃ j, Chain (find parent a).1 x s j)) := by
  obtain ⟨r, k, hch⟩ := hg a
  obtain ⟨hroot, htrans⟩ := find_spec parent a r k hch
  have hg' : Ground (find parent a).1 := by
    intro x
    obtain ⟨s, j, hj⟩ := hg x
    obtain ⟨j', _, hj'⟩ := htrans x s j hj
    exact ⟨s, j', hj'⟩
  refine ⟨hg', ⟨k, by rw [hroot]; exact hch⟩, ?_⟩
  intro x s
  constructor
  · rintro ⟨j, hj⟩
    obtain ⟨j', _, hj'⟩ := htrans x s j hj
    exact ⟨j', hj'⟩
  · rintro ⟨j, hj⟩
    obtain ⟨s0, j0, hj0⟩ := hg x
    obtain ⟨j0', _, hj0'⟩ := htrans x s0 j0 hj0
    have hs : s = s0 := chain_unique hj hj0'
    exact ⟨j0, by rw [hs]; exact hj0⟩

/-- Writing `parent[ra] = rb` for two distinct roots: chains to other
roots survive unchanged, chains to `ra` now continue to `rb`. -/
theorem set_root_chains (parent : List ℕ) (ra rb : ℕ)
    (hra : parentOf parent ra = ra) (hrb : parentOf parent rb = rb)
    (hlen : ra < parent.length) (hne : ra ≠ rb) :
    (∀ s x k, Chain parent x s k → s ≠ ra → Chain (parent.set ra rb) x s k)
    ∧ (∀ x k, Chain parent x ra k → Chain (parent.set ra rb) x rb (k + 1)) := by
  have hrb' : parentOf (parent.set ra rb) rb = rb := by
    rw [parentOf_set_ne parent rb (Ne.symm hne)]
    exact hrb
  constructor
  · intro s x k
    induction k generalizing x with
    | zero =>
      intro hch hs
      have hxs : x = s := hch.1
      subst hxs
      exact chain_root _ (by rw [parentOf_set_ne parent rb hs]; exact hch.2)
    | succ k ih =>
      intro hch hs
      have hxa : x ≠ ra := by
        intro hc
        subst hc
        have hconst : (parentOf parent)^[k+1] x = x := Function.iterate_fixed hra (k+1)
        rw [hch.1] at hconst
        exact hs hconst
      refine chain_succ.mpr ?_
      rw [parentOf_set_ne parent rb hxa]
      exact ih _ (chain_succ.mp hch) hs
  · intro x k
    induction k generalizing x with
    | zero =>
      intro hch
      have hxra : x = ra := hch.1
      subst hxra
      refine chain_succ.mpr ?_
      rw [parentOf_set_self hlen]
      exact chain_root _ hrb'
    | succ k ih =>
      intro hch
      by_cases hxa : x = ra
      · subst hxa
        refine ⟨?_, hrb'⟩
        rw [Function.iterate_succ_apply, parentOf_set_self hlen]
        exact Function.iterate_fixed hrb' (k + 1)
      · refine chain_succ.mpr ?_
        rw [parentOf_set_ne parent rb hxa]
        exact ih _ (chain_succ.mp hch)

/-- Full behaviour of `union`: it keeps the structure grounded and
bounded, joins the classes of its two arguments, and otherwise changes no
class. -/
theorem union_spec (n : ℕ) (parent : List ℕ) (a b : ℕ)
    (hg : Ground parent) (hb : Bounded n parent) (han : a < n) (hbn : b < n) :
    Ground (union parent a b) ∧ Bounded n (union parent a b)
    ∧ SameRoot (union parent a b) a b
    ∧ ∀ x y, SameRoot (union parent a b) x y ↔
        (SameRoot parent x y ∨ (SameRoot parent x a ∧ SameRoot parent y b)
          ∨ (SameRoot parent x b ∧ SameRoot parent y a)) := by
  obtain ⟨hg1, hcha, hiff1⟩ := find_props parent a hg
  have hb1 : Bounded n (find parent a).1 := find_bounded n parent a hb
  obtain ⟨hg2, hchb, hiff2⟩ := find_props (find parent a).1 b hg1
  have hb2 : Bounded n (find (find parent a).1 b).1 :=
    find_bounded n (find parent a).1 b hb1
  have hiffA : ∀ x s, (∃ j, Chain parent x s j)
      ↔ (∃ j, Chain (find (find parent a).1 b).1 x s j) := by
    intro x s
    rw [hiff1 x s, hiff2 x s]
  -- notation: ra, rb, p2
  have hroota : ∃ j, Chain parent a (find parent a).2 j := hcha
  have hrootb2 : ∃ j, Chain (find (find parent a).1 b).1 b
      (find (find parent a).1 b).2 j := (hiff2 b _).mp hchb
  have hrootaP : parentOf parent (find parent a).2 = (find parent a).2 := by
    obtain ⟨j, hj⟩ := hcha
    exact hj.2
  have hrootbP1 : parentOf (find parent a).1 (find (find parent a).1 b).2
      = (find (find parent a).1 b).2 := by
    obtain ⟨j, hj⟩ := hchb
    exact hj.2
  have hra2 : ∃ j, Chain (find (find parent a).1 b).1 a (find parent a).2 j :=
    (hiffA a _).mp hcha
  have hrb2 : ∃ j, Chain (find (find parent a).1 b).1 b
      (find (find parent a).1 b).2 j := hrootb2
  have hrootaP2 : parentOf (find (find parent a).1 b).1 (find parent a).2
      = (find parent a).2 := by
    obtain ⟨j, hj⟩ := (hiffA (find parent a).2 (find parent a).2).mp
      ⟨0, chain_root parent hrootaP⟩
    exact hj.2
  have hrootbP2 : parentOf (find (find parent a).1 b).1 (find (find parent a).1 b).2
      = (find (find parent a).1 b).2 := by
    obtain ⟨j, hj⟩ := hrootb2
    exact hj.2
  have hran : (find parent a).2 < n := by
    obtain ⟨j, hj⟩ := hcha
    exact chain_lt n hb j han hj
  have hrbn : (find (find parent a).1 b).2 < n := by
    obtain ⟨j, hj⟩ := hchb
    exact chain_lt n hb1 j hbn hj
  have hralen : (find parent a).2 < (find (find parent a).1 b).1.length := by
    rw [hb2.1]
    exact hran
  have hunion : union parent a b
      = (find (find parent a).1 b).1.set (find parent a).2
          (find (find parent a).1 b).2 := rfl
  have hbu : Bounded n (union parent a b) := by
    rw [hunion]
    constructor
    · rw [List.length_set]
      exact hb2.1
    · intro x hx
      rcases List.mem_or_eq_of_mem_set hx with hx | rfl
      · exact hb2.2 x hx
      · exact hrbn
  by_cases hrarb : (find parent a).2 = (find (find parent a).1 b).2
  · -- the two classes were already one
    have hsame : ∀ x, parentOf (union parent a b) x
        = parentOf (find (find parent a).1 b).1 x := by
      rw [hunion]
      exact parentOf_set_value _ (by rw [← hrarb] at hrootbP2 ⊢; exact hrootaP2)
    have hchiff : ∀ x s, (∃ j, Chain (union parent a b) x s j)
        ↔ (∃ j, Chain (find (find parent a).1 b).1 x s j) := by
      intro x s
      constructor
      · rintro ⟨j, hj⟩
        exact ⟨j, chain_congr hsame hj⟩
      · rintro ⟨j, hj⟩
        exact ⟨j, chain_congr (fun x => (hsame x).symm) hj⟩
    have hsriff : ∀ x y, SameRoot (union parent a b) x y ↔ SameRoot parent x y := by
      intro x y
      constructor
      · rintro ⟨r, j, k, h1, h2⟩
        obtain ⟨j', h1'⟩ := (hiffA x r).mpr ((hchiff x r).mp ⟨j, h1⟩)
        obtain ⟨k', h2'⟩ := (hiffA y r).mpr ((hchiff y r).mp ⟨k, h2⟩)
        exact ⟨r, j', k', h1', h2'⟩
      · rintro ⟨r, j, k, h1, h2⟩
        obtain ⟨j', h1'⟩ := (hchiff x r).mpr ((hiffA x r).mp ⟨j, h1⟩)
        obtain ⟨k', h2'⟩ := (hchiff y r).mpr ((hiffA y r).mp ⟨k, h2⟩)
        exact ⟨r, j', k', h1', h2'⟩
    have hsrab : SameRoot parent a b := by
      obtain ⟨j, hj⟩ := hcha
      obtain ⟨k, hk⟩ := (hiff1 b _).mpr hchb
      exact ⟨(find parent a).2, j, k, hj, by rw [hrarb]; exact hk⟩
    refine ⟨?_, hbu, ?_, ?_⟩
    · intro x
      obtain ⟨s, j, hj⟩ := hg x
      obtain ⟨j', hj'⟩ := (hchiff x s).mpr ((hiffA x s).mp ⟨j, hj⟩)
      exact ⟨s, j', hj'⟩
    · exact (hsriff a b).mpr hsrab
    · intro x y
      rw [hsriff x y]
      constructor
      · exact fun h => Or.inl h
      · rintro (h | ⟨h1, h2⟩ | ⟨h1, h2⟩)
        · exact h
        · exact sameRoot_trans h1 (sameRoot_trans hsrab (sameRoot_symm h2))
        · exact sameRoot_trans h1 (sameRoot_trans (sameRoot_symm hsrab) (sameRoot_symm h2))
  · -- genuinely joining two classes
    obtain ⟨hkeep, hjoin⟩ := set_root_chains (find (find parent a).1 b).1
      (find parent a).2 (find (find parent a).1 b).2 hrootaP2 hrootbP2 hralen hrarb
    have hchar : ∀ x s, (∃ j, Chain (union parent a b) x s j)
        ↔ ((∃ j, Chain parent x s j) ∧ s ≠ (find parent a).2)
          ∨ ((∃ j, Chain parent x (find parent a).2 j)
              ∧ s = (find (find parent a).1 b).2) := by
      intro x s
      constructor
      · rintro ⟨j, hj⟩
        obtain ⟨s0, j0, hj0⟩ := hg x
        obtain ⟨j2, hj2⟩ := (hiffA x s0).mp ⟨j0, hj0⟩
        by_cases hs0 : s0 = (find parent a).2
        · have hju := hjoin x j2 (by rw [← hs0]; exact hj2)
          have hs : s = (find (find parent a).1 b).2 :=
            chain_unique hj (by rw [hunion]; exact hju)
          exact Or.inr ⟨⟨j0, by rw [← hs0]; exact hj0⟩, hs⟩
        · have hju := hkeep s0 x j2 hj2 hs0
          have hs : s = s0 := chain_unique hj (by rw [hunion]; exact hju)
          exact Or.inl ⟨⟨j0, by rw [hs]; exact hj0⟩, by rw [hs]; exact hs0⟩
      · rintro (⟨⟨j, hj⟩, hs⟩ | ⟨⟨j, hj⟩, hs⟩)
        · obtain ⟨j2, hj2⟩ := (hiffA x s).mp ⟨j, hj⟩
          exact ⟨j2, by rw [hunion]; exact hkeep s x j2 hj2 hs⟩
        · obtain ⟨j2, hj2⟩ := (hiffA x _).mp ⟨j, hj⟩
          exact ⟨j2 + 1, by rw [hunion, hs]; exact hjoin x j2 hj2⟩
    have hgu : Ground (union parent a b) := by
      intro x
      obtain ⟨s, j, hj⟩ := hg x
      by_cases hs : s = (find parent a).2
      · obtain ⟨j', hj'⟩ := (hchar x (find (find parent a).1 b).2).mpr
          (Or.inr ⟨⟨j, by rw [← hs]; exact hj⟩, rfl⟩)
        exact ⟨_, j', hj'⟩
      · obtain ⟨j', hj'⟩ := (hchar x s).mpr (Or.inl ⟨⟨j, hj⟩, hs⟩)
        exact ⟨s, j', hj'⟩
    have hroot_of_a : ∃ j, Chain parent a (find parent a).2 j := hcha
    have hroot_of_b : ∃ j, Chain parent b (find (find parent a).1 b).2 j :=
      (hiff1 b _).mpr hchb
    have hsr_to_roota : ∀ x, SameRoot parent x a
        ↔ (∃ j, Chain parent x (find parent a).2 j) := by
      intro x
      constructor
      · rintro ⟨r, j, k, h1, h2⟩
        obtain ⟨j0, hj0⟩ := hroot_of_a
        have : r = (find parent a).2 := chain_unique h2 hj0
        exact ⟨j, by rw [← this]; exact h1⟩
      · rintro ⟨j, hj⟩
        obtain ⟨j0, hj0⟩ := hroot_of_a
        exact ⟨(find parent a).2, j, j0, hj, hj0⟩
    have hsr_to_rootb : ∀ x, SameRoot parent x b
        ↔ (∃ j, Chain parent x (find (find parent a).1 b).2 j) := by
      intro x
      constructor
      · rintro ⟨r, j, k, h1, h2⟩
        obtain ⟨j0, hj0⟩ := hroot_of_b
        have : r = (find (find parent a).1 b).2 := chain_unique h2 hj0
        exact ⟨j, by rw [← this]; exact h1⟩
      · rintro ⟨j, hj⟩
        obtain ⟨j0, hj0⟩ := hroot_of_b
        exact ⟨(find (find parent a).1 b).2, j, j0, hj, hj0⟩
    refine ⟨hgu, hbu, ?_, ?_⟩
    · obtain ⟨ja, hja⟩ := (hchar a (find (find parent a).1 b).2).mpr
        (Or.inr ⟨hroot_of_a, rfl⟩)
      obtain ⟨jb, hjb⟩ := (hchar b (find (find parent a).1 b).2).mpr
        (Or.inl ⟨hroot_of_b, Ne.symm hrarb⟩)
      exact ⟨(find (find parent a).1 b).2, ja, jb, hja, hjb⟩
    · intro x y
      constructor
      · rintro ⟨s, j, k, h1, h2⟩
        rcases (hchar x s).mp ⟨j, h1⟩ with ⟨hx, hsx⟩ | ⟨hx, hsx⟩ <;>
          rcases (hchar y s).mp ⟨k, h2⟩ with ⟨hy, hsy⟩ | ⟨hy, hsy⟩
        · obtain ⟨jx, hjx⟩ := hx
          obtain ⟨jy, hjy⟩ := hy
          exact Or.inl ⟨s, jx, jy, hjx, hjy⟩
        · -- x keeps root s = rb, y was in a's class
          refine Or.inr (Or.inr ⟨?_, (hsr_to_roota y).mpr hy⟩)
          exact (hsr_to_rootb x).mpr (by rw [← hsy]; exact hx)
        · refine Or.inr (Or.inl ⟨(hsr_to_roota x).mpr hx, ?_⟩)
          exact (hsr_to_rootb y).mpr (by rw [← hsx]; exact hy)
        · obtain ⟨jx, hjx⟩ := hx
          obtain ⟨jy, hjy⟩ := hy
          exact Or.inl ⟨(find parent a).2, jx, jy, hjx, hjy⟩
      · rintro (⟨s, j, k, h1, h2⟩ | ⟨h1, h2⟩ | ⟨h1, h2⟩)
        · by_cases hs : s = (find parent a).2
          · obtain ⟨j', hj'⟩ := (hchar x (find (find parent a).1 b).2).mpr
              (Or.inr ⟨⟨j, by rw [← hs]; exact h1⟩, rfl⟩)
            obtain ⟨k', hk'⟩ := (hchar y (find (find parent a).1 b).2).mpr
              (Or.inr ⟨⟨k, by rw [← hs]; exact h2⟩, rfl⟩)
            exact ⟨_, j', k', hj', hk'⟩
          · obtain ⟨j', hj'⟩ := (hchar x s).mpr (Or.inl ⟨⟨j, h1⟩, hs⟩)
            obtain ⟨k', hk'⟩ := (hchar y s).mpr (Or.inl ⟨⟨k, h2⟩, hs⟩)
            exact ⟨s, j', k', hj', hk'⟩
        · obtain ⟨j', hj'⟩ := (hchar x (find (find parent a).1 b).2).mpr
            (Or.inr ⟨(hsr_to_roota x).mp h1, rfl⟩)
          obtain ⟨k', hk'⟩ := (hchar y (find (find parent a).1 b).2).mpr
            (Or.inl ⟨(hsr_to_rootb y).mp h2, Ne.symm hrarb⟩)
          exact ⟨_, j', k', hj', hk'⟩
        · obtain ⟨j', hj'⟩ := (hchar x (find (find parent a).1 b).2).mpr
            (Or.inl ⟨(hsr_to_rootb x).mp h1, Ne.symm hrarb⟩)
          obtain ⟨k', hk'⟩ := (hchar y (find (find parent a).1 b).2).mpr
            (Or.inr ⟨(hsr_to_roota y).mp h2, rfl⟩)
          exact ⟨_, j', k', hj', hk'⟩

theorem parentOf_init (n x : ℕ) : parentOf (init n) x = x := by
  unfold parentOf init
  rcases Nat.lt_or_ge x n with h | h
  · rw [List.getD_eq_getElem?_getD, List.getElem?_range h]
    rfl
  · exact List.getD_eq_default _ _ (by rw [List.length_range]; exact h)

theorem ground_init (n : ℕ) : Ground (init n) :=
  fun a => ⟨a, 0, chain_root _ (parentOf_init n a)⟩

theorem bounded_init (n : ℕ) : Bounded n (init n) :=
  ⟨List.length_range n, fun x hx => List.mem_range.mp hx⟩

theorem sameRoot_init (n x y : ℕ) : SameRoot (init n) x y ↔ x = y := by
  constructor
  · rintro ⟨r, j, k, ⟨h1, _⟩, ⟨h2, _⟩⟩
    have hx : x = r := by
      rw [← h1, Function.iterate_fixed (parentOf_init n x) j]
    have hy : y = r := by
      rw [← h2, Function.iterate_fixed (parentOf_init n y) k]
    rw [hx, hy]
  · rintro rfl
    exact sameRoot_refl _ (ground_init n) x

/-- The contraction loop of `main` (cmip_gurobi.py:99-101):
`for (i, j), coeff in ising.quadratic.items(): if coeff * ising.scale <=
-args.chain_strength: uf.union(i, j)`. -/
def unionEdges (cs sc : ℚ) (l : List ((ℕ × ℕ) × ℚ)) (parent : List ℕ) : List ℕ :=
  l.foldl (fun p q => if q.2 * sc ≤ -cs then union p q.1.1 q.1.2 else p) parent

/-- An entry of the quadratic dictionary whose coefficient meets the
chain-strength threshold: exactly the pairs the contraction loop unions. -/
def StrongEdge (cs sc : ℚ) (l : List ((ℕ × ℕ) × ℚ)) (a b : ℕ) : Prop :=
  ∃ c, ((a, b), c) ∈ l ∧ c * sc ≤ -cs

/-- Running the contraction loop keeps the union-find grounded and bounded
and makes two ids share a root exactly when they are connected by the
previous relation extended with the threshold-meeting edges. -/
theorem unionEdges_spec (n : ℕ) (cs sc : ℚ) :
    ∀ (l : List ((ℕ × ℕ) × ℚ)) (parent : List ℕ) (R : ℕ → ℕ → Prop),
    Ground parent → Bounded n parent →
    (∀ p ∈ l, p.1.1 < n ∧ p.1.2 < n) →
    (∀ x y, SameRoot parent x y ↔ Conn R x y) →
    Ground (unionEdges cs sc l parent) ∧ Bounded n (unionEdges cs sc l parent)
    ∧ ∀ x y, SameRoot (unionEdges cs sc l parent) x y
        ↔ Conn (fun a b => R a b ∨ StrongEdge cs sc l a b) x y := by
  intro l
  induction l with
  | nil =>
    intro parent R hg hb _ hR
    refine ⟨hg, hb, ?_⟩
    intro x y
    rw [show unionEdges cs sc [] parent = parent from rfl, hR x y]
    refine Conn_iff_of_iff (fun a b => ?_) x y
    constructor
    · exact fun h => Or.inl h
    · rintro (h | ⟨c, hc, _⟩)
      · exact h
      · exact absurd hc (List.not_mem_nil _)
  | cons q t ih =>
    intro parent R hg hb hvars hR
    by_cases hcond : q.2 * sc ≤ -cs
    · have hq := hvars q (List.mem_cons_self q t)
      obtain ⟨hgu, hbu, _, hcls⟩ := union_spec n parent q.1.1 q.1.2 hg hb hq.1 hq.2
      have hR' : ∀ x y, SameRoot (union parent q.1.1 q.1.2) x y
          ↔ Conn (fun a b => R a b ∨ (a = q.1.1 ∧ b = q.1.2)) x y := by
        intro x y
        rw [hcls x y, Conn_add_edge R q.1.1 q.1.2 x y]
        constructor
        · rintro (h | ⟨h1, h2⟩ | ⟨h1, h2⟩)
          · exact Or.inl ((hR x y).mp h)
          · exact Or.inr (Or.inl ⟨(hR x q.1.1).mp h1, Conn.symm ((hR y q.1.2).mp h2)⟩)
          · exact Or.inr (Or.inr ⟨(hR x q.1.2).mp h1, Conn.symm ((hR y q.1.1).mp h2)⟩)
        · rintro (h | ⟨h1, h2⟩ | ⟨h1, h2⟩)
          · exact Or.inl ((hR x y).mpr h)
          · exact Or.inr (Or.inl ⟨(hR x q.1.1).mpr h1, (hR y q.1.2).mpr (Conn.symm h2)⟩)
          · exact Or.inr (Or.inr ⟨(hR x q.1.2).mpr h1, (hR y q.1.1).mpr (Conn.symm h2)⟩)
      have hstep : unionEdges cs sc (q :: t) parent
          = unionEdges cs sc t (union parent q.1.1 q.1.2) := by
        unfold unionEdges
        rw [List.foldl_cons]
        simp only [if_pos hcond]
      obtain ⟨hg2, hb2, hcls2⟩ := ih (union parent q.1.1 q.1.2)
        (fun a b => R a b ∨ (a = q.1.1 ∧ b = q.1.2)) hgu hbu
        (fun p hp => hvars p (List.mem_cons_of_mem q hp)) hR'
      rw [hstep]
      refine ⟨hg2, hb2, ?_⟩
      intro x y
      rw [hcls2 x y]
      refine Conn_iff_of_iff (fun a b => ?_) x y
      constructor
      · rintro ((h | ⟨rfl, rfl⟩) | ⟨c, hc, hcc⟩)
        · exact Or.inl h
        · exact Or.inr ⟨q.2, List.mem_cons_self q t, hcond⟩
        · exact Or.inr ⟨c, List.mem_cons_of_mem q hc, hcc⟩
      · rintro (h | ⟨c, hc, hcc⟩)
        · exact Or.inl (Or.inl h)
        · rcases List.mem_cons.mp hc with hh | hh
          · refine Or.inl (Or.inr ?_)
            rw [← hh]
            exact ⟨rfl, rfl⟩
          · exact Or.inr ⟨c, hh, hcc⟩
    · have hstep : unionEdges cs sc (q :: t) parent = unionEdges cs sc t parent := by
        unfold unionEdges
        rw [List.foldl_cons]
        simp only [if_neg hcond]
      obtain ⟨hg2, hb2, hcls2⟩ := ih parent R hg hb
        (fun p hp => hvars p (List.mem_cons_of_mem q hp)) hR
      rw [hstep]
      refine ⟨hg2, hb2, ?_⟩
      intro x y
      rw [hcls2 x y]
      refine Conn_iff_of_iff (fun a b => ?_) x y
      constructor
      · rintro (h | ⟨c, hc, hcc⟩)
        · exact Or.inl h
        · exact Or.inr ⟨c, List.mem_cons_of_mem q hc, hcc⟩
      · rintro (h | ⟨c, hc, hcc⟩)
        · exact Or.inl h
        · rcases List.mem_cons.mp hc with hh | hh
          · exfalso
            have hq2 : q.2 = c := by rw [← hh]
            exact hcond (by rw [hq2]; exact hcc)
          · exact Or.inr ⟨c, hh, hcc⟩

/-- The body of the grouping loop of `main` (cmip_gurobi.py:105-110):
`group = uf.find(var); groups.setdefault(group, []).append(var);
group_of_var[var] = group`, threading the parent array mutated by `find`.
State: (parent, groups, group_of_var). -/
def buildStep (st : List ℕ × List (ℕ × List ℕ) × List (ℕ × ℕ)) (var : ℕ) :
    List ℕ × List (ℕ × List ℕ) × List (ℕ × ℕ) :=
  let f := find st.1 var
  (f.1, dset st.2.1 f.2 (dgetD st.2.1 f.2 [] ++ [var]), dset st.2.2 var f.2)

/-- The grouping loop of `main` over the model's variables. -/
def buildGroups (parent : List ℕ) (l : List ℕ) :
    List ℕ × List (ℕ × List ℕ) × List (ℕ × ℕ) :=
  l.foldl buildStep (parent, [], [])

/-- Invariant of the grouping fold: the parent array stays grounded with
unchanged roots, and `group_of_var` records a root (w.r.t. the incoming
parent) for every processed variable. -/
theorem buildFold_spec (l : List ℕ) :
    ∀ (parent : List ℕ) (groups : List (ℕ × List ℕ)) (gov : List (ℕ × ℕ)),
    Ground parent →
    Ground (l.foldl buildStep (parent, groups, gov)).1
    ∧ (∀ x s, (∃ j, Chain parent x s j)
        ↔ (∃ j, Chain (l.foldl buildStep (parent, groups, gov)).1 x s j))
    ∧ (∀ v, (v ∈ l ∨ (∃ j, Chain parent v (dgetD gov v 0) j))
        → ∃ j, Chain parent v
            (dgetD (l.foldl buildStep (parent, groups, gov)).2.2 v 0) j) := by
  induction l with
  | nil =>
    intro parent groups gov hg
    refine ⟨hg, fun x s => Iff.rfl, ?_⟩
    intro v hv
    rcases hv with hv | hv
    · exact absurd hv (List.not_mem_nil v)
    · exact hv
  | cons var t ih =>
    intro parent groups gov hg
    obtain ⟨hg1, hchv, hiff1⟩ := find_props parent var hg
    have hbs : buildStep (parent, groups, gov) var
        = ((find parent var).1,
           dset groups (find parent var).2
             (dgetD groups (find parent var).2 [] ++ [var]),
           dset gov var (find parent var).2) := rfl
    have hfold : (var :: t).foldl buildStep (parent, groups, gov)
        = t.foldl buildStep ((find parent var).1,
            dset groups (find parent var).2
              (dgetD groups (find parent var).2 [] ++ [var]),
            dset gov var (find parent var).2) := by
      rw [List.foldl_cons, hbs]
    obtain ⟨hg2, hiff2, hgov2⟩ := ih (find parent var).1
      (dset groups (find parent var).2 (dgetD groups (find parent var).2 [] ++ [var]))
      (dset gov var (find parent var).2) hg1
    rw [hfold]
    refine ⟨hg2, ?_, ?_⟩
    · intro x s
      rw [hiff1 x s, hiff2 x s]
    · intro v hv
      by_cases hvt : v ∈ t
      · obtain ⟨j, hj⟩ := hgov2 v (Or.inl hvt)
        obtain ⟨j', hj'⟩ := (hiff1 v _).mpr ⟨j, hj⟩
        exact ⟨j', hj'⟩
      · by_cases hvv : v = var
        · subst hvv
          have hentry : dgetD (dset gov v (find parent v).2) v 0 = (find parent v).2 :=
            dgetD_dset_self gov v _ 0
          obtain ⟨j1, hj1⟩ := (hiff1 v _).mp hchv
          obtain ⟨j, hj⟩ := hgov2 v (Or.inr ⟨j1, by rw [hentry]; exact hj1⟩)
          obtain ⟨j', hj'⟩ := (hiff1 v _).mpr ⟨j, hj⟩
          exact ⟨j', hj'⟩
        · have hve : ∃ j, Chain parent v (dgetD gov v 0) j := by
            rcases hv with hvl | hve
            · rcases List.mem_cons.mp hvl with hh | hh
              · exact absurd hh hvv
              · exact absurd hh hvt
            · exact hve
          have hentry : dgetD (dset gov var (find parent var).2) v 0
              = dgetD gov v 0 := dgetD_dset_ne gov _ 0 hvv
          obtain ⟨j1, hj1⟩ := (hiff1 v _).mp hve
          obtain ⟨j, hj⟩ := hgov2 v (Or.inr ⟨j1, by rw [hentry]; exact hj1⟩)
          obtain ⟨j', hj'⟩ := (hiff1 v _).mpr ⟨j, hj⟩
          exact ⟨j', hj'⟩

end UnionFind

open UnionFind

theorem le_foldl_max (l : List ℕ) : ∀ a : ℕ, a ≤ l.foldl max a := by
  induction l with
  | nil => exact fun a => le_refl a
  | cons x t ih =>
    intro a
    rw [List.foldl_cons]
    exact le_trans (le_max_left a x) (ih (max a x))

theorem mem_le_foldl_max (l : List ℕ) : ∀ (a v : ℕ), v ∈ l → v ≤ l.foldl max a := by
  induction l with
  | nil => exact fun a v hv => absurd hv (List.not_mem_nil v)
  | cons x t ih =>
    intro a v hv
    rw [List.foldl_cons]
    rcases List.mem_cons.mp hv with rfl | hv
    · exact le_trans (le_max_right a v) (le_foldl_max t (max a v))
    · exact ih (max a x) v hv

/-- `max(ising.variables)` (with the empty set read as `0`; the driver
raises there before reaching the contraction). -/
def maxVar (l : List ℕ) : ℕ := l.foldl max 0

/-- The union-find parent array after the contraction loop of `main`:
`uf = UnionFind(max(ising.variables) + 1)` followed by the strong-edge
unions. -/
def contractionParent (cs : ℚ) (m : Ising) : List ℕ :=
  unionEdges cs m.scale m.quadratic (init (maxVar m.vars + 1))

/-- The grouping state `(parent, groups, group_of_var)` after the
grouping loop of `main`. -/
def contraction (cs : ℚ) (m : Ising) :
    List ℕ × List (ℕ × List ℕ) × List (ℕ × ℕ) :=
  buildGroups (contractionParent cs m) m.vars

/-- The `group_of_var` dict computed by `main`. -/
def groupOfVar (cs : ℚ) (m : Ising) : List (ℕ × ℕ) := (contraction cs m).2.2

/-- The merge loop of `main` (cmip_gurobi.py:112-115):
`for group, members in groups.items(): for var in members:
if group != var: ising.merge(group, var)`. -/
def mergeAll (m : Ising) (groups : List (ℕ × List ℕ)) : Ising :=
  groups.foldl (fun acc g => g.2.foldl
    (fun acc2 var => if g.1 ≠ var then acc2.merge g.1 var else acc2) acc) m

/-- The whole contraction pipeline of `main`: union the threshold-meeting
edges, group variables by union-find root, merge every non-representative
member into its group's representative. -/
def contract (cs : ℚ) (m : Ising) : Ising :=
  mergeAll m (contraction cs m).2.1

/-- C7: after unioning every quadratic pair whose coefficient times scale
meets the chain-strength threshold, `group_of_var` assigns two variable
ids the same representative exactly when they are connected in the graph
of threshold-meeting pairs, and each id's representative lies in its own
connected component.  Hypothesis: every quadratic key names declared
variables (guaranteed by bqpjson validation). -/
theorem groupOfVar_spec (cs : ℚ) (m : Ising)
    (hq : ∀ p ∈ m.quadratic, p.1.1 ∈ m.vars ∧ p.1.2 ∈ m.vars) :
    (∀ v1 ∈ m.vars, ∀ v2 ∈ m.vars,
      (dgetD (groupOfVar cs m) v1 0 = dgetD (groupOfVar cs m) v2 0
        ↔ Conn (StrongEdge cs m.scale m.quadratic) v1 v2))
    ∧ ∀ v ∈ m.vars,
        Conn (StrongEdge cs m.scale m.quadratic) v (dgetD (groupOfVar cs m) v 0) := by
  have hvars : ∀ p ∈ m.quadratic,
      p.1.1 < maxVar m.vars + 1 ∧ p.1.2 < maxVar m.vars + 1 := by
    intro p hp
    obtain ⟨h1, h2⟩ := hq p hp
    exact ⟨Nat.lt_succ_of_le (mem_le_foldl_max m.vars 0 _ h1),
      Nat.lt_succ_of_le (mem_le_foldl_max m.vars 0 _ h2)⟩
  have hR0 : ∀ x y, SameRoot (init (maxVar m.vars + 1)) x y
      ↔ Conn (fun _ _ => False) x y := by
    intro x y
    rw [sameRoot_init, Conn_empty]
  obtain ⟨hgP, hbP, hsrP⟩ := unionEdges_spec (maxVar m.vars + 1) cs m.scale
    m.quadratic (init (maxVar m.vars + 1)) (fun _ _ => False)
    (ground_init _) (bounded_init _) hvars hR0
  have hsrP' : ∀ x y, SameRoot (contractionParent cs m) x y
      ↔ Conn (StrongEdge cs m.scale m.quadratic) x y := by
    intro x y
    rw [show contractionParent cs m
        = unionEdges cs m.scale m.quadratic (init (maxVar m.vars + 1)) from rfl,
      hsrP x y]
    refine Conn_iff_of_iff (fun a b => ?_) x y
    constructor
    · rintro (h | h)
      · exact h.elim
      · exact h
    · exact fun h => Or.inr h
  obtain ⟨-, -, hgov⟩ := buildFold_spec m.vars (contractionParent cs m) [] [] hgP
  have hroot : ∀ v ∈ m.vars, ∃ j, Chain (contractionParent cs m) v
      (dgetD (groupOfVar cs m) v 0) j := by
    intro v hv
    exact hgov v (Or.inl hv)
  constructor
  · intro v1 hv1 v2 hv2
    constructor
    · intro heq
      obtain ⟨j1, hj1⟩ := hroot v1 hv1
      obtain ⟨j2, hj2⟩ := hroot v2 hv2
      rw [heq] at hj1
      exact (hsrP' v1 v2).mp ⟨_, j1, j2, hj1, hj2⟩
    · intro hconn
      obtain ⟨r, j, k, h1, h2⟩ := (hsrP' v1 v2).mpr hconn
      obtain ⟨j1, hj1⟩ := hroot v1 hv1
      obtain ⟨j2, hj2⟩ := hroot v2 hv2
      rw [chain_unique hj1 h1, chain_unique hj2 h2]
  · intro v hv
    obtain ⟨j, hj⟩ := hroot v hv
    exact (hsrP' v _).mp
      ⟨dgetD (groupOfVar cs m) v 0, j, 0, hj, chain_root _ hj.2⟩

theorem groupOfVar_spec_witness :
    (∀ p ∈ isingC2.quadratic, p.1.1 ∈ isingC2.vars ∧ p.1.2 ∈ isingC2.vars)
    ∧ (∀ v ∈ isingC2.vars, Conn (StrongEdge 1 isingC2.scale isingC2.quadratic) v
        (dgetD (groupOfVar 1 isingC2) v 0)) :=
  ⟨by decide, (groupOfVar_spec 1 isingC2 (by decide)).2⟩

theorem find_fixed {parent : List ℕ} {a : ℕ} (h : parentOf parent a = a) :
    find parent a = (parent, a) := by
  unfold find
  cases hl : parent.length with
  | zero => rfl
  | succ k =>
    simp only [findAux]
    rw [if_pos h.symm]

theorem unionEdges_id (cs sc : ℚ) (l : List ((ℕ × ℕ) × ℚ)) :
    ∀ (parent : List ℕ),
    (∀ p ∈ l, ¬ p.2 * sc ≤ -cs) → unionEdges cs sc l parent = parent := by
  induction l with
  | nil => exact fun parent _ => rfl
  | cons q t ih =>
    intro parent h
    have hstep : unionEdges cs sc (q :: t) parent = unionEdges cs sc t parent := by
      unfold unionEdges
      rw [List.foldl_cons]
      simp only [if_neg (h q (List.mem_cons_self q t))]
    rw [hstep]
    exact ih parent (fun p hp => h p (List.mem_cons_of_mem q hp))

/-- On an identity parent array the grouping loop only ever produces
singleton groups `(g, [g])`: every member of a group equals its key. -/
theorem buildFold_fixed (l : List ℕ) :
    ∀ (parent : List ℕ) (groups : List (ℕ × List ℕ)) (gov : List (ℕ × ℕ)),
    (∀ x, parentOf parent x = x) →
    (∀ p ∈ groups, ∀ v ∈ p.2, v = p.1) →
    ∀ p ∈ (l.foldl buildStep (parent, groups, gov)).2.1, ∀ v ∈ p.2, v = p.1 := by
  induction l with
  | nil =>
    intro parent groups gov _ hinv
    exact hinv
  | cons var t ih =>
    intro parent groups gov hfix hinv
    have hfind : find parent var = (parent, var) := find_fixed (hfix var)
    have hbs : buildStep (parent, groups, gov) var
        = (parent, dset groups var (dgetD groups var [] ++ [var]),
            dset gov var var) := by
      show ((find parent var).1,
        dset groups (find parent var).2
          (dgetD groups (find parent var).2 [] ++ [var]),
        dset gov var (find parent var).2) = _
      rw [hfind]
    have hinv' : ∀ p ∈ dset groups var (dgetD groups var [] ++ [var]),
        ∀ v ∈ p.2, v = p.1 := by
      intro p hp v hv
      rcases mem_dset_elim hp with hpe | hp'
      · rw [hpe] at hv ⊢
        have hv' : v ∈ dgetD groups var [] ++ [var] := hv
        show v = var
        rcases List.mem_append.mp hv' with hv2 | hv2
        · by_cases hk : var ∈ dkeys groups
          · exact hinv _ (dgetD_mem groups [] hk) v hv2
          · rw [dgetD_of_not_mem_dkeys groups [] hk] at hv2
            exact absurd hv2 (List.not_mem_nil v)
        · exact List.mem_singleton.mp hv2
      · exact hinv p hp' v hv
    rw [List.foldl_cons, hbs]
    exact ih parent _ (dset gov var var) hfix hinv'

theorem mergeFoldInner_id (g1 : ℕ) (mem : List ℕ) :
    ∀ (m : Ising), (∀ v ∈ mem, v = g1) →
    mem.foldl (fun acc2 var =>
      if g1 ≠ var then Ising.merge acc2 g1 var else acc2) m = m := by
  induction mem with
  | nil => exact fun m _ => rfl
  | cons v t ih =>
    intro m h
    have hv : v = g1 := h v (List.mem_cons_self v t)
    have hcond : ¬ g1 ≠ v := by rw [hv]; exact fun hc => hc rfl
    rw [show (v :: t).foldl (fun acc2 var =>
        if g1 ≠ var then Ising.merge acc2 g1 var else acc2) m
      = t.foldl (fun acc2 var =>
        if g1 ≠ var then Ising.merge acc2 g1 var else acc2)
        (if g1 ≠ v then Ising.merge m g1 v else m) from rfl,
      if_neg hcond]
    exact ih m (fun w hw => h w (List.mem_cons_of_mem v hw))

theorem mergeAll_id (groups : List (ℕ × List ℕ)) :
    ∀ (m : Ising), (∀ p ∈ groups, ∀ v ∈ p.2, v = p.1) → mergeAll m groups = m := by
  induction groups with
  | nil => exact fun m _ => rfl
  | cons g t ih =>
    intro m h
    rw [show mergeAll m (g :: t)
        = mergeAll (g.2.foldl (fun acc2 var =>
            if g.1 ≠ var then Ising.merge acc2 g.1 var else acc2) m) t from rfl,
      mergeFoldInner_id g.1 g.2 m (h g (List.mem_cons_self g t))]
    exact ih m (fun p hp => h p (List.mem_cons_of_mem g hp))

/-- C3 (amended): a model none of whose quadratic coefficients meets the
chain-strength threshold is a fixed point of the whole contraction
pipeline.  The original idempotence claim is false
(`contraction_not_idempotent`): merging can accumulate several
sub-threshold coefficients onto one pair and push it over the threshold,
so re-contracting the output merges further. -/
theorem contract_id_of_no_strong_edge (cs : ℚ) (m : Ising)
    (h : ∀ p ∈ m.quadratic, ¬ p.2 * m.scale ≤ -cs) :
    contract cs m = m := by
  have hpar : contractionParent cs m = init (maxVar m.vars + 1) :=
    unionEdges_id cs m.scale m.quadratic (init (maxVar m.vars + 1)) h
  have hfix : ∀ x, parentOf (init (maxVar m.vars + 1)) x = x :=
    parentOf_init (maxVar m.vars + 1)
  have hgrp : ∀ p ∈ (contraction cs m).2.1, ∀ v ∈ p.2, v = p.1 := by
    have hall := buildFold_fixed m.vars (init (maxVar m.vars + 1)) [] [] hfix
      (fun p hp => absurd hp (List.not_mem_nil p))
    have hceq : (contraction cs m).2.1
        = (m.vars.foldl buildStep (init (maxVar m.vars + 1), [], [])).2.1 := by
      rw [show contraction cs m
          = buildGroups (contractionParent cs m) m.vars from rfl, hpar]
      rfl
    rw [hceq]
    exact hall
  exact mergeAll_id (contraction cs m).2.1 m hgrp

theorem contract_id_witness :
    (∀ p ∈ isingC2.quadratic, ¬ p.2 * isingC2.scale ≤ -(1 : ℚ))
    ∧ contract 1 isingC2 = isingC2 := by
  have h : ∀ p ∈ isingC2.quadratic, ¬ p.2 * isingC2.scale ≤ -(1 : ℚ) := by
    intro p hp
    have hp' : p = ((1, 2), (5 : ℚ)) := List.mem_singleton.mp hp
    rw [hp']
    norm_num [isingC2]
  exact ⟨h, contract_id_of_no_strong_edge 1 isingC2 h⟩

/-- Counterexample model for idempotence: two weak couplings `-3/5` from
variables 2 and 3 onto 1 and one strong coupling `-1` on `(2, 3)`.
Contracting at chain strength 1 merges 2 into 3 and accumulates the two
weak couplings into a single coefficient `-6/5` on `(1, 3)`, which meets
the threshold, so a second contraction at the same threshold merges
further. -/
def isingC3 : Ising :=
  { vars := [1, 2, 3]
    linear := [(1, 0), (2, 0), (3, 0)]
    quadratic := [((1, 2), -3/5), ((1, 3), -3/5), ((2, 3), -1)]
    adjacent := fun a =>
      if a = 1 then [2, 3] else if a = 2 then [1, 3]
      else if a = 3 then [1, 2] else []
    scale := 1
    offset := 0 }

/-- The model after the first contraction of `isingC3`: variable 2 merged
into its group representative 3. -/
def isingC3m : Ising := Ising.merge isingC3 3 2

/-- C3: the contraction pipeline of `main` is not idempotent.  On
`isingC3` with chain strength 1 the first contraction merges 2 into 3 and
leaves variables `[1, 3]` with the accumulated coefficient `-6/5` on
`(1, 3)`; that coefficient meets the threshold, so contracting the output
again merges 1 into 3, leaving `[3]` — the claimed idempotence fails. -/
theorem contraction_not_idempotent :
    contract 1 (contract 1 isingC3) ≠ contract 1 isingC3 := by
  intro h
  have hc1 : ¬ ((-3/5 : ℚ) * 1 ≤ -1) := by norm_num
  have hc2 : ((-1 : ℚ) * 1 ≤ -1) := by norm_num
  have hu1 : unionEdges 1 isingC3.scale isingC3.quadratic
      (init (maxVar isingC3.vars + 1)) = [0, 1, 3, 3] := by
    show unionEdges 1 1 [((1, 2), -3/5), ((1, 3), -3/5), ((2, 3), -1)]
      [0, 1, 2, 3] = [0, 1, 3, 3]
    unfold unionEdges
    simp only [List.foldl_cons, List.foldl_nil]
    rw [if_neg hc1, if_neg hc1, if_pos hc2]
    rfl
  have hq1 : contract 1 isingC3 = isingC3m := by
    show mergeAll isingC3
      (buildGroups (unionEdges 1 isingC3.scale isingC3.quadratic
        (init (maxVar isingC3.vars + 1))) isingC3.vars).2.1 = _
    rw [hu1]
    rfl
  have hqm : isingC3m.quadratic = [((1, 3), (-3/5 : ℚ) + -3/5)] := rfl
  have hc3 : ((-3/5 : ℚ) + -3/5) * 1 ≤ -1 := by norm_num
  have hu2 : unionEdges 1 isingC3m.scale isingC3m.quadratic
      (init (maxVar isingC3m.vars + 1)) = [0, 3, 2, 3] := by
    rw [hqm, show isingC3m.scale = 1 from rfl,
      show maxVar isingC3m.vars + 1 = 4 from rfl]
    show unionEdges 1 1 [((1, 3), (-3/5 : ℚ) + -3/5)] [0, 1, 2, 3]
      = [0, 3, 2, 3]
    unfold unionEdges
    simp only [List.foldl_cons, List.foldl_nil]
    rw [if_pos hc3]
    rfl
  have hq2 : contract 1 isingC3m = Ising.merge isingC3m 3 1 := by
    show mergeAll isingC3m
      (buildGroups (unionEdges 1 isingC3m.scale isingC3m.quadratic
        (init (maxVar isingC3m.vars + 1))) isingC3m.vars).2.1 = _
    rw [hu2]
    rfl
  have hvars1 : (contract 1 isingC3).vars = [1, 3] := by
    rw [hq1]
    rfl
  have hvars2 : (contract 1 (contract 1 isingC3)).vars = [3] := by
    rw [hq1, hq2]
    rfl
  rw [h, hvars1] at hvars2
  exact absurd hvars2 (by decide)

end CMIP

end BQP
